import Mathlib

/-!
Verification of the perflock daemon (aktau/perflock).

This file contains a shallow embedding of the parts of the repository that
the verified properties are about:

* the CPU-set primitives of package cpuset (built on the fixed 1024-bit
  bitmap of x/sys/unix CPUSet),
* the lock queue and core scheduler of cmd/perflock/lock.go
  (Enqueue / Dequeue / setQ / takeCores),
* the session-level Acquire admission check and the governor save / apply /
  restore logic of the daemon,
* the Linux CPU-list parser of package cpuset.

Design of the embedding:

* unix.CPUSet is a value of type [16]uint64 (1024 bits).  We embed it as a
  Finset (Fin 1024): the canonical bijection maps a bitmap to the set of
  indices of its set bits, and the word-parallel operations of the Go code
  (and / or / and-not per word, popcount, point set / clear / test with the
  bounds guard of x/sys/unix) correspond exactly to the finite-set
  operations defined below.
* mutation is replaced by explicit state passing: functions that mutate a
  Locker or the PerfLock pool in Go return the updated values here.
* the grant channel send (locker.c <- true) is pure signalling; the woken
  flag, which the code sets at the same moment, represents the grant.
* machine integers: all the Go uint / int quantities embedded here are
  counts bounded by 1024 or values guarded before use, so Nat / Int without
  wrap-around is exact; strconv.Atoi, whose int64 range check is
  observable, is modelled with its explicit 2^63 bounds.
-/

/-! ## CPUSet: the 1024-bit CPU bitmap of x/sys/unix plus package cpuset -/

/-- A CPU affinity mask.  Embeds x/sys/unix CPUSet, a [16]uint64 bitmap
over CPU indices 0..1023, as the set of indices of its set bits. -/
abbrev CPUSet := Finset (Fin 1024)

/-- Embeds x/sys/unix CPUSet.Set: sets bit cpu, silently ignoring indices
beyond the bitmap capacity (the Go code guards with i < len(s)). -/
def CPUSet.set (s : CPUSet) (cpu : Nat) : CPUSet :=
  if h : cpu < 1024 then insert ⟨cpu, h⟩ s else s

/-- Embeds x/sys/unix CPUSet.Clear: clears bit cpu, silently ignoring
indices beyond the bitmap capacity. -/
def CPUSet.clear (s : CPUSet) (cpu : Nat) : CPUSet :=
  if h : cpu < 1024 then Finset.erase s ⟨cpu, h⟩ else s

/-- Embeds x/sys/unix CPUSet.IsSet: tests bit cpu, false beyond the bitmap
capacity. -/
def CPUSet.isSet (s : CPUSet) (cpu : Nat) : Bool :=
  if h : cpu < 1024 then decide ((⟨cpu, h⟩ : Fin 1024) ∈ s) else false

/-- Embeds x/sys/unix CPUSet.Count: the total popcount of the bitmap. -/
def CPUSet.count (s : CPUSet) : Nat := s.card

/-- Embeds cpuset.Intersect: word-parallel bitwise and. -/
def CPUSet.intersect (a b : CPUSet) : CPUSet := a ∩ b

/-- Embeds cpuset.Union: word-parallel bitwise or. -/
def CPUSet.union (a b : CPUSet) : CPUSet := a ∪ b

/-- Embeds cpuset.Difference: word-parallel bitwise and-not. -/
def CPUSet.difference (a b : CPUSet) : CPUSet := a \ b

/-- The loop body of cpuset.Range:

  count := s.Count()
  for i := 0; count > 0; i++ {
    if s.IsSet(i) { fn(i); count-- }
  }

The list returned is the sequence of indices passed to fn.  The fuel
argument bounds the index variable i; the Go loop has no such bound, and
the theorem rangeList_eq_sorted_bits below shows that 1024 steps of i
always suffice (the termination half of the claimed property). -/
def CPUSet.rangeLoop (s : CPUSet) : Nat → Nat → Nat → List Nat
  | 0, _, _ => []
  | fuel + 1, i, count =>
    if count = 0 then []
    else if CPUSet.isSet s i then i :: CPUSet.rangeLoop s fuel (i + 1) (count - 1)
    else CPUSet.rangeLoop s fuel (i + 1) count

/-- Embeds cpuset.Range: the sequence of indices the callback is invoked
on, in order of invocation. -/
def CPUSet.rangeList (s : CPUSet) : List Nat :=
  CPUSet.rangeLoop s 1024 0 (CPUSet.count s)

theorem CPUSet.isSet_eq_true_iff (s : CPUSet) (i : Nat) :
    CPUSet.isSet s i = true ↔ ∃ h : i < 1024, (⟨i, h⟩ : Fin 1024) ∈ s := by
  unfold CPUSet.isSet
  by_cases h : i < 1024
  · simp [h]
  · simp [h]

theorem CPUSet.rangeLoop_eq_take_filter (s : CPUSet) :
    ∀ (fuel i count : Nat),
      CPUSet.rangeLoop s fuel i count =
        ((List.range' i fuel).filter (fun j => CPUSet.isSet s j)).take count := by
  intro fuel
  induction fuel with
  | zero => intro i count; simp [CPUSet.rangeLoop]
  | succ fuel ih =>
    intro i count
    rw [List.range'_succ]
    rcases count with _ | c
    · simp [CPUSet.rangeLoop]
    · by_cases hi : CPUSet.isSet s i
      · simp [CPUSet.rangeLoop, hi, ih]
      · simp [CPUSet.rangeLoop, hi, ih]

/-- The set bits of s, listed in increasing index order, as natural
numbers. -/
def CPUSet.sortedBits (s : CPUSet) : List Nat :=
  (Finset.sort (· ≤ ·) s).map Fin.val

theorem CPUSet.filter_range_eq_sortedBits (s : CPUSet) :
    (List.range 1024).filter (fun j => CPUSet.isSet s j) = CPUSet.sortedBits s := by
  have hnd₁ : ((List.range 1024).filter (fun j => CPUSet.isSet s j)).Nodup :=
    (List.nodup_range 1024).filter _
  have hnd₂ : (CPUSet.sortedBits s).Nodup :=
    (Finset.sort_nodup (· ≤ ·) s).map Fin.val_injective
  have hmem : ∀ a, a ∈ (List.range 1024).filter (fun j => CPUSet.isSet s j) ↔
      a ∈ CPUSet.sortedBits s := by
    intro a
    simp only [List.mem_filter, List.mem_range, CPUSet.sortedBits, List.mem_map,
      Finset.mem_sort]
    constructor
    · rintro ⟨hlt, hset⟩
      rcases (CPUSet.isSet_eq_true_iff s a).1 hset with ⟨h, hmem⟩
      exact ⟨⟨a, h⟩, hmem, rfl⟩
    · rintro ⟨b, hb, rfl⟩
      refine ⟨b.isLt, (CPUSet.isSet_eq_true_iff s b.val).2 ⟨b.isLt, ?_⟩⟩
      simpa using hb
  have hperm : List.Perm ((List.range 1024).filter (fun j => CPUSet.isSet s j))
      (CPUSet.sortedBits s) :=
    (List.perm_ext_iff_of_nodup hnd₁ hnd₂).2 hmem
  have hs₁ : ((List.range 1024).filter (fun j => CPUSet.isSet s j)).Sorted (· ≤ ·) := by
    have := (List.pairwise_lt_range 1024).filter (fun j => CPUSet.isSet s j)
    exact this.imp le_of_lt
  have hs₂ : (CPUSet.sortedBits s).Sorted (· ≤ ·) := by
    refine List.Pairwise.map Fin.val ?_ (Finset.sort_sorted (· ≤ ·) s)
    intro a b hab
    exact hab
  exact List.eq_of_perm_of_sorted hperm hs₁ hs₂

theorem CPUSet.length_sortedBits (s : CPUSet) :
    (CPUSet.sortedBits s).length = CPUSet.count s := by
  simp [CPUSet.sortedBits, CPUSet.count, Finset.length_sort]

/-- Claim C10.  For every CPUSet, Range terminates (1024 index steps always
suffice for the count-driven loop to exhaust its counter) and invokes the
callback exactly once per set bit, in strictly increasing index order, and
never for an unset index: the sequence of callback arguments is exactly the
sorted list of set-bit indices. -/
theorem range_visits_sorted_bits (s : CPUSet) :
    CPUSet.rangeList s = CPUSet.sortedBits s := by
  rw [CPUSet.rangeList, CPUSet.rangeLoop_eq_take_filter, ← List.range_eq_range',
    CPUSet.filter_range_eq_sortedBits, ← CPUSet.length_sortedBits, List.take_length]

/-! ## The lock queue and core scheduler (cmd/perflock/lock.go) -/

/-- Embeds the Locker struct of lock.go.  The grant channel pair C / c is
represented by the woken flag alone: the code sends true on the channel
exactly when it sets woken, and nothing else is ever sent.  The msg string
is display-only and carried nowhere in the verified properties, so it is
omitted. -/
structure Locker where
  wantCores : Nat
  availCores : CPUSet
  assignedCores : CPUSet
  shared : Bool
  woken : Bool
deriving DecidableEq

/-- Embeds the PerfLock struct: the FIFO queue q of Lockers and the free
core pool.  The sync.Mutex serialises all queue operations in Go; the
embedding makes each operation a single atomic function on this state.
Lockers are heap pointers in Go; since a Locker appears in the queue at
most once, positions in the list stand for pointer identity. -/
structure PerfLock where
  q : List Locker
  cores : CPUSet
deriving DecidableEq

/-- The assignment loop inside takeCores, driven by cpuset.Range over the
candidate set:

  cpuset.Range(cores, func(i int) {
    if want > 0 {
      locker.assignedCores.Set(i)
      l.cores.Clear(i)
      want--
    }
  })

The first component of the result is the final assignedCores, the second
the final free pool. -/
def takeLoop : List Nat → CPUSet → CPUSet → Nat → CPUSet × CPUSet
  | [], assigned, free, _ => (assigned, free)
  | i :: rest, assigned, free, want =>
    if 0 < want then
      takeLoop rest (CPUSet.set assigned i) (CPUSet.clear free i) (want - 1)
    else takeLoop rest assigned free want

/-- Embeds PerfLock.takeCores.  Mutation of locker.assignedCores and
l.cores is returned as (updated locker, updated free pool).  The two
runtime assertions of the Go function do not modify state; they are
modelled separately as the propositions takeCoresEntryAssert and
takeCoresPostAssert, and whether they can fire is itself one of the
verified questions. -/
def takeCores (free : CPUSet) (locker : Locker) : Locker × CPUSet :=
  if locker.wantCores = 0 then (locker, free)
  else
    let cores := CPUSet.intersect free locker.availCores
    let p := takeLoop (CPUSet.rangeList cores) locker.assignedCores free locker.wantCores
    ({ locker with assignedCores := p.1 }, p.2)

/-- The assertion at the entry of takeCores:
assert(uint(l.cores.Count()) >= locker.wantCores, ...).  If it fails the Go
process panics. -/
def takeCoresEntryAssert (free : CPUSet) (locker : Locker) : Prop :=
  locker.wantCores ≤ CPUSet.count free

/-- The assertion at the end of takeCores:
assert(uint(locker.assignedCores.Count()) == locker.wantCores, ...).  If it
fails the Go process panics. -/
def takeCoresPostAssert (locker : Locker) : Prop :=
  CPUSet.count locker.assignedCores = locker.wantCores

/-- Embeds the wake closure of setQ:

  wake := func(locker *Locker) {
    if locker.woken == false {
      l.takeCores(locker)
      locker.woken = true
      locker.c <- true
    }
  }

The channel send is the grant signal; the woken flag records it. -/
def wake (free : CPUSet) (locker : Locker) : Locker × CPUSet :=
  if locker.woken then (locker, free)
  else
    let p := takeCores free locker
    ({ p.1 with woken := true }, p.2)

/-- Embeds the shared-head loop of setQ, with i the running index:

  for i, locker := range q {
    if !locker.shared { break }
    if i != 0 && !locker.woken {
      if locker.wantCores != 0 && uint(l.cores.Count()) < locker.wantCores {
        break
      }
    }
    wake(locker)
  }

Returns the updated queue suffix and free pool. -/
def wakeShared (free : CPUSet) (i : Nat) : List Locker → List Locker × CPUSet
  | [] => ([], free)
  | locker :: rest =>
    if locker.shared = false then (locker :: rest, free)
    else if i ≠ 0 ∧ locker.woken = false ∧ locker.wantCores ≠ 0 ∧
        CPUSet.count free < locker.wantCores then
      (locker :: rest, free)
    else
      let p := wake free locker
      let q := wakeShared p.2 (i + 1) rest
      (p.1 :: q.1, q.2)

/-- Embeds PerfLock.setQ (the wake pass).  In Go it first stores q into l.q
and then mutates lockers and l.cores in place; the embedding returns the
final (l.q, l.cores) pair. -/
def setQ (q : List Locker) (free : CPUSet) : List Locker × CPUSet :=
  match q with
  | [] => ([], free)
  | h :: t =>
    if h.shared then wakeShared free 0 (h :: t)
    else
      let p := wake free h
      (p.1 :: t, p.2)

/-- The Locker literal constructed at the top of Enqueue (woken false,
assignedCores empty). -/
def mkLocker (shared : Bool) (wantCores : Nat) (set : CPUSet) : Locker :=
  { wantCores := wantCores, availCores := set, assignedCores := ∅,
    shared := shared, woken := false }

/-- Embeds PerfLock.Enqueue.  Returns the updated pool state and the
returned *Locker: none models the nil return of the non-blocking failure
path, some the returned pointer (whose pointee is the last queue entry
after the wake pass). -/
def Enqueue (st : PerfLock) (shared nonblocking : Bool) (wantCores : Nat)
    (set : CPUSet) : PerfLock × Option Locker :=
  let locker := mkLocker shared wantCores set
  let p := setQ (st.q ++ [locker]) st.cores
  let lk := p.1.getLastD locker
  if nonblocking && !lk.woken then
    let p2 := setQ p.1.dropLast p.2
    (⟨p2.1, p2.2⟩, none)
  else
    (⟨p.1, p.2⟩, some lk)

/-- Embeds PerfLock.Dequeue for the entry at index i.  Go locates the entry
by pointer identity (first match); since a Locker is enqueued at most once,
the index is that position.  Dequeue of an index outside the queue panics
in Go ("Dequeue of non-enqueued Locker"); the embedding returns the state
unchanged there and the reachability relation below never takes that
branch. -/
def Dequeue (st : PerfLock) (i : Nat) : PerfLock :=
  match st.q.get? i with
  | none => st
  | some locker =>
    let newset := CPUSet.union st.cores locker.assignedCores
    let p := setQ (st.q.eraseIdx i) newset
    ⟨p.1, p.2⟩

/-- States of the daemon's lock reachable from startup by any sequence of
Enqueue and Dequeue calls.  all is the core set captured from PID 1 at
daemon start (theLock.cores = allCores).  The enq guards record what holds
at the only call site of Enqueue (Serve): the request was admitted only if
wantCores does not exceed the popcount of the requester's available set,
and a process's available set lies within the system set the daemon
captured (the spec's stable-topology assumption: free_cores is initialised
to all cores allowed to PID 1 and every requester runs inside that
system). -/
inductive Reach (all : CPUSet) : PerfLock → Prop where
  | init : Reach all ⟨[], all⟩
  | enq (st : PerfLock) (shared nonblocking : Bool) (wantCores : Nat) (set : CPUSet) :
      Reach all st → wantCores ≤ CPUSet.count set → set ⊆ all →
      Reach all (Enqueue st shared nonblocking wantCores set).1
  | deq (st : PerfLock) (i : Nat) :
      Reach all st → i < st.q.length → Reach all (Dequeue st i)

/-- Claim C1.  When the Locker at the head of the queue is exclusive
(shared = false), the wake pass touches only that head: it wakes it exactly
when it is not already woken, and the queue behind the head (and, when the
head was already woken, the entire state) is left unchanged.  This holds in
every state, reachable or not. -/
theorem setQ_exclusive_head_wakes_only_head (h : Locker) (t : List Locker)
    (free : CPUSet) (hx : h.shared = false) :
    setQ (h :: t) free = ((wake free h).1 :: t, (wake free h).2) ∧
      (h.woken = true → setQ (h :: t) free = (h :: t, free)) := by
  constructor
  · simp [setQ, hx]
  · intro hw
    simp [setQ, hx, wake, hw]

/-- Witness for C1 at a concrete input: an already-woken exclusive head in
front of a pending shared Locker; the pass changes nothing. -/
theorem setQ_exclusive_head_wakes_only_head_witness :
    setQ [⟨0, ∅, ∅, false, true⟩, ⟨0, ∅, ∅, true, false⟩] ∅ =
      ([⟨0, ∅, ∅, false, true⟩, ⟨0, ∅, ∅, true, false⟩], ∅) :=
  (setQ_exclusive_head_wakes_only_head ⟨0, ∅, ∅, false, true⟩
    [⟨0, ∅, ∅, true, false⟩] ∅ rfl).2 rfl

/-! ## Characterisation of takeCores and wake -/

theorem CPUSet.set_val (s : CPUSet) (b : Fin 1024) :
    CPUSet.set s b.val = insert b s := by
  simp [CPUSet.set, b.isLt]

theorem CPUSet.clear_val (s : CPUSet) (b : Fin 1024) :
    CPUSet.clear s b.val = s.erase b := by
  simp [CPUSet.clear, b.isLt]

theorem takeLoop_want_zero (xs : List Nat) :
    ∀ (A free : CPUSet), takeLoop xs A free 0 = (A, free) := by
  induction xs with
  | nil => intro A free; rfl
  | cons x xs ih => intro A free; simp [takeLoop, ih]

theorem takeLoop_map_val (ys : List (Fin 1024)) :
    ∀ (A free : CPUSet) (w : Nat),
      takeLoop (ys.map Fin.val) A free w =
        (A ∪ (ys.take w).toFinset, free \ (ys.take w).toFinset) := by
  induction ys with
  | nil => intro A free w; simp [takeLoop]
  | cons y ys ih =>
    intro A free w
    rcases w with _ | w
    · simp [takeLoop_want_zero]
    · rw [List.map_cons]
      show takeLoop (y.val :: ys.map Fin.val) A free (w + 1) = _
      rw [takeLoop]
      simp only [Nat.succ_sub_one, if_pos (Nat.succ_pos w), CPUSet.set_val,
        CPUSet.clear_val, ih]
      rw [List.take_succ_cons, List.toFinset_cons, Prod.mk.injEq]
      constructor
      · rw [Finset.union_insert, Finset.insert_union]
      · rw [Finset.erase_eq, sdiff_sdiff, Finset.insert_eq]
        rfl

/-- The set of cores takeCores hands to a Locker: the first wantCores bits,
in ascending index order, of free ∩ availCores (all of them if there are
fewer). -/
def takenSet (free : CPUSet) (locker : Locker) : CPUSet :=
  if locker.wantCores = 0 then ∅
  else ((Finset.sort (· ≤ ·) (free ∩ locker.availCores)).take locker.wantCores).toFinset

theorem takeCores_eq (free : CPUSet) (locker : Locker) :
    takeCores free locker =
      ({ locker with assignedCores := locker.assignedCores ∪ takenSet free locker },
        free \ takenSet free locker) := by
  rcases locker with ⟨w, av, asg, sh, wo⟩
  by_cases h0 : w = 0
  · subst h0
    simp [takeCores, takenSet]
  · simp only [takeCores, takenSet, CPUSet.intersect, h0, if_false]
    rw [range_visits_sorted_bits, CPUSet.sortedBits, takeLoop_map_val]

theorem takenSet_subset (free : CPUSet) (locker : Locker) :
    takenSet free locker ⊆ free ∩ locker.availCores := by
  unfold takenSet
  by_cases h0 : locker.wantCores = 0
  · simp [h0]
  · rw [if_neg h0]
    intro x hx
    rw [List.mem_toFinset] at hx
    exact (Finset.mem_sort (α := Fin 1024) (· ≤ ·)).1 (List.take_subset _ _ hx)

theorem takenSet_subset_free (free : CPUSet) (locker : Locker) :
    takenSet free locker ⊆ free :=
  (takenSet_subset free locker).trans Finset.inter_subset_left

/-- The cores a single wake step hands out (empty if the Locker was already
woken). -/
def wokenTake (free : CPUSet) (locker : Locker) : CPUSet :=
  if locker.woken then ∅ else takenSet free locker

theorem wake_eq (free : CPUSet) (locker : Locker) :
    wake free locker =
      ({ locker with
          assignedCores := locker.assignedCores ∪ wokenTake free locker
          woken := true },
        free \ wokenTake free locker) := by
  rcases locker with ⟨w, av, asg, sh, wo⟩
  cases wo
  · simp only [wake, wokenTake, Bool.false_eq_true, if_false, takeCores_eq]
  · simp [wake, wokenTake]

theorem wokenTake_subset_free (free : CPUSet) (locker : Locker) :
    wokenTake free locker ⊆ free := by
  unfold wokenTake
  by_cases hw : locker.woken
  · simp [hw]
  · rw [if_neg hw]; exact takenSet_subset_free free locker

theorem wake_woken_noop (free : CPUSet) (locker : Locker) (hw : locker.woken = true) :
    wake free locker = (locker, free) := by
  simp [wake, hw]

theorem wake_fst_woken (free : CPUSet) (locker : Locker) :
    (wake free locker).1.woken = true := by
  rw [wake_eq]

theorem wake_fst_shared (free : CPUSet) (locker : Locker) :
    (wake free locker).1.shared = locker.shared := by
  rw [wake_eq]

theorem wake_snd_subset (free : CPUSet) (locker : Locker) :
    (wake free locker).2 ⊆ free := by
  rw [wake_eq]
  exact Finset.sdiff_subset

/-! ## Accounting: the union of assigned cores across the queue -/

/-- The union of the assignedCores of all Lockers in a queue. -/
def assignedUnion (q : List Locker) : CPUSet :=
  q.foldr (fun lk acc => lk.assignedCores ∪ acc) ∅

@[simp] theorem assignedUnion_nil : assignedUnion [] = ∅ := rfl

@[simp] theorem assignedUnion_cons (lk : Locker) (q : List Locker) :
    assignedUnion (lk :: q) = lk.assignedCores ∪ assignedUnion q := rfl

theorem assignedUnion_append (q r : List Locker) :
    assignedUnion (q ++ r) = assignedUnion q ∪ assignedUnion r := by
  induction q with
  | nil => simp
  | cons lk q ih => simp [ih, Finset.union_assoc]

theorem subset_assignedUnion_of_mem {lk : Locker} {q : List Locker} (h : lk ∈ q) :
    lk.assignedCores ⊆ assignedUnion q := by
  induction q with
  | nil => cases h
  | cons a q ih =>
    rcases List.mem_cons.1 h with rfl | h
    · simp
    · exact (ih h).trans (by simp)

theorem disjoint_assignedUnion {x : CPUSet} {q : List Locker}
    (h : ∀ lk ∈ q, Disjoint x lk.assignedCores) : Disjoint x (assignedUnion q) := by
  induction q with
  | nil => simp
  | cons a q ih =>
    rw [assignedUnion_cons, Finset.disjoint_union_right]
    exact ⟨h a (List.mem_cons_self a q), ih fun lk hlk => h lk (List.mem_cons_of_mem a hlk)⟩

theorem assignedUnion_eq_empty {q : List Locker}
    (h : ∀ lk ∈ q, lk.assignedCores = ∅) : assignedUnion q = ∅ := by
  induction q with
  | nil => rfl
  | cons a q ih =>
    rw [assignedUnion_cons, h a (List.mem_cons_self a q),
      ih fun lk hlk => h lk (List.mem_cons_of_mem a hlk), Finset.union_empty]

/-! ## The wake pass: frame, monotonicity and conservation lemmas -/

theorem wakeShared_snd_subset :
    ∀ (q : List Locker) (free : CPUSet) (i : Nat), (wakeShared free i q).2 ⊆ free := by
  intro q
  induction q with
  | nil => intro free i; exact fun x hx => hx
  | cons lk rest ih =>
    intro free i
    rw [wakeShared]
    split_ifs with h1 h2
    · exact fun x hx => hx
    · exact fun x hx => hx
    · exact (ih (wake free lk).2 (i + 1)).trans (wake_snd_subset free lk)

theorem wakeShared_assignedUnion :
    ∀ (q : List Locker) (free : CPUSet) (i : Nat),
      assignedUnion (wakeShared free i q).1 =
        assignedUnion q ∪ (free \ (wakeShared free i q).2) := by
  intro q
  induction q with
  | nil => intro free i; simp [wakeShared]
  | cons lk rest ih =>
    intro free i
    rw [wakeShared]
    split_ifs with h1 h2
    · simp
    · simp
    · show assignedUnion ((wake free lk).1 :: (wakeShared (wake free lk).2 (i + 1) rest).1) =
        assignedUnion (lk :: rest) ∪
          (free \ (wakeShared (wake free lk).2 (i + 1) rest).2)
      have hT : wokenTake free lk ⊆ free := wokenTake_subset_free free lk
      have hf2 : (wakeShared (wake free lk).2 (i + 1) rest).2 ⊆ (wake free lk).2 :=
        wakeShared_snd_subset rest (wake free lk).2 (i + 1)
      have hf1 : (wake free lk).2 ⊆ free := wake_snd_subset free lk
      rw [assignedUnion_cons, ih, wake_eq]
      show (lk.assignedCores ∪ wokenTake free lk) ∪
          (assignedUnion rest ∪
            ((free \ wokenTake free lk) \ (wakeShared (free \ wokenTake free lk) (i + 1) rest).2)) =
        assignedUnion (lk :: rest) ∪
          (free \ (wakeShared (free \ wokenTake free lk) (i + 1) rest).2)
      have hsplit : free \ (wakeShared (free \ wokenTake free lk) (i + 1) rest).2 =
          wokenTake free lk ∪
            ((free \ wokenTake free lk) \ (wakeShared (free \ wokenTake free lk) (i + 1) rest).2) := by
        have h1 : free \ (free \ wokenTake free lk) = wokenTake free lk := by
          rw [sdiff_sdiff_right_self]
          exact inf_eq_right.2 hT
        have hc : (wakeShared (free \ wokenTake free lk) (i + 1) rest).2 ⊆
            free \ wokenTake free lk := by
          have := hf2
          rw [wake_eq] at this
          exact this
        calc free \ (wakeShared (free \ wokenTake free lk) (i + 1) rest).2 =
            free \ (free \ wokenTake free lk) ∪
              ((free \ wokenTake free lk) \
                (wakeShared (free \ wokenTake free lk) (i + 1) rest).2) :=
              (sdiff_sup_sdiff_cancel Finset.sdiff_subset hc).symm
          _ = wokenTake free lk ∪
              ((free \ wokenTake free lk) \
                (wakeShared (free \ wokenTake free lk) (i + 1) rest).2) := by rw [h1]
      rw [assignedUnion_cons, hsplit]
      simp [Finset.union_assoc, Finset.union_left_comm, Finset.union_comm]

/-! ## The queue invariant -/

/-- The state invariant of the daemon's lock, relative to the startup core
set all.  Conjuncts, in order: (1) every queued Locker passed Serve's
admission check and its process set lies inside the system set; (2) a
Locker that has not been woken holds no cores; (3) woken Lockers form a
front of the FIFO queue; (4) assigned core sets are pairwise disjoint;
(5) assigned core sets are disjoint from the free pool; (6) assigned core
sets lie inside the system set; (7) the free pool lies inside the system
set. -/
def QInv (all : CPUSet) (q : List Locker) (free : CPUSet) : Prop :=
  (∀ lk ∈ q, lk.availCores ⊆ all ∧ lk.wantCores ≤ CPUSet.count lk.availCores) ∧
  (∀ lk ∈ q, lk.woken = false → lk.assignedCores = ∅) ∧
  List.Pairwise (fun a b => b.woken = true → a.woken = true) q ∧
  List.Pairwise (fun a b => Disjoint a.assignedCores b.assignedCores) q ∧
  (∀ lk ∈ q, Disjoint lk.assignedCores free) ∧
  (∀ lk ∈ q, lk.assignedCores ⊆ all) ∧
  free ⊆ all

theorem wakeShared_QInv (all : CPUSet) :
    ∀ (q : List Locker) (free : CPUSet) (i : Nat),
      QInv all q free → QInv all (wakeShared free i q).1 (wakeShared free i q).2 := by
  intro q
  induction q with
  | nil => intro free i h; simpa [wakeShared] using h
  | cons lk rest ih =>
    intro free i h
    obtain ⟨hg, hu, hwf, hpd, hdf, hsa, hfs⟩ := h
    rw [wakeShared]
    split_ifs with h1 h2
    · exact ⟨hg, hu, hwf, hpd, hdf, hsa, hfs⟩
    · exact ⟨hg, hu, hwf, hpd, hdf, hsa, hfs⟩
    · show QInv all
        ((wake free lk).1 :: (wakeShared (wake free lk).2 (i + 1) rest).1)
        (wakeShared (wake free lk).2 (i + 1) rest).2
      have e1 : (wake free lk).1 =
          { lk with
            assignedCores := lk.assignedCores ∪ wokenTake free lk
            woken := true } := by rw [wake_eq]
      have e2 : (wake free lk).2 = free \ wokenTake free lk := by rw [wake_eq]
      rw [e1, e2]
      have hT : wokenTake free lk ⊆ free := wokenTake_subset_free free lk
      have hf1 : free \ wokenTake free lk ⊆ free := Finset.sdiff_subset
      have hrest : QInv all rest (free \ wokenTake free lk) := by
        refine ⟨?_, ?_, ?_, ?_, ?_, ?_, ?_⟩
        · intro b hb; exact hg b (List.mem_cons_of_mem lk hb)
        · intro b hb; exact hu b (List.mem_cons_of_mem lk hb)
        · exact (List.pairwise_cons.1 hwf).2
        · exact (List.pairwise_cons.1 hpd).2
        · intro b hb; exact (hdf b (List.mem_cons_of_mem lk hb)).mono_right hf1
        · intro b hb; exact hsa b (List.mem_cons_of_mem lk hb)
        · exact hf1.trans hfs
      obtain ⟨hg2, hu2, hwf2, hpd2, hdf2, hsa2, hfs2⟩ :=
        ih (free \ wokenTake free lk) (i + 1) hrest
      have hf2 : (wakeShared (free \ wokenTake free lk) (i + 1) rest).2 ⊆
          free \ wokenTake free lk :=
        wakeShared_snd_subset rest (free \ wokenTake free lk) (i + 1)
      have hAU : assignedUnion (wakeShared (free \ wokenTake free lk) (i + 1) rest).1 =
          assignedUnion rest ∪
            ((free \ wokenTake free lk) \
              (wakeShared (free \ wokenTake free lk) (i + 1) rest).2) :=
        wakeShared_assignedUnion rest (free \ wokenTake free lk) (i + 1)
      have hheadD : Disjoint (lk.assignedCores ∪ wokenTake free lk)
          (assignedUnion rest ∪
            ((free \ wokenTake free lk) \
              (wakeShared (free \ wokenTake free lk) (i + 1) rest).2)) := by
        have hd1 : Disjoint lk.assignedCores (assignedUnion rest) :=
          disjoint_assignedUnion (List.pairwise_cons.1 hpd).1
        have hd2 : Disjoint lk.assignedCores
            ((free \ wokenTake free lk) \
              (wakeShared (free \ wokenTake free lk) (i + 1) rest).2) :=
          (hdf lk (List.mem_cons_self lk rest)).mono_right
            (Finset.sdiff_subset.trans Finset.sdiff_subset)
        have hd3 : Disjoint (wokenTake free lk) (assignedUnion rest) := by
          have hfx : Disjoint free (assignedUnion rest) :=
            disjoint_assignedUnion fun b hb =>
              (hdf b (List.mem_cons_of_mem lk hb)).symm
          exact hfx.mono_left hT
        have hd4 : Disjoint (wokenTake free lk)
            ((free \ wokenTake free lk) \
              (wakeShared (free \ wokenTake free lk) (i + 1) rest).2) :=
          (Finset.sdiff_disjoint.symm).mono_right Finset.sdiff_subset
        exact Finset.disjoint_union_left.2
          ⟨Finset.disjoint_union_right.2 ⟨hd1, hd2⟩,
           Finset.disjoint_union_right.2 ⟨hd3, hd4⟩⟩
      refine ⟨?_, ?_, ?_, ?_, ?_, ?_, hfs2⟩
      · intro b hb
        rcases List.mem_cons.1 hb with rfl | hb
        · exact hg lk (List.mem_cons_self lk rest)
        · exact hg2 b hb
      · intro b hb
        rcases List.mem_cons.1 hb with rfl | hb
        · intro hw
          cases hw
        · exact hu2 b hb
      · rw [List.pairwise_cons]
        exact ⟨fun b _ _ => rfl, hwf2⟩
      · rw [List.pairwise_cons]
        refine ⟨fun b hb => ?_, hpd2⟩
        exact hheadD.mono_right ((subset_assignedUnion_of_mem hb).trans (le_of_eq hAU))
      · intro b hb
        rcases List.mem_cons.1 hb with rfl | hb
        · show Disjoint (lk.assignedCores ∪ wokenTake free lk)
            (wakeShared (free \ wokenTake free lk) (i + 1) rest).2
          refine Finset.disjoint_union_left.2 ⟨?_, ?_⟩
          · exact (hdf lk (List.mem_cons_self lk rest)).mono_right (hf2.trans hf1)
          · exact (Finset.sdiff_disjoint.symm).mono_right hf2
        · exact hdf2 b hb
      · intro b hb
        rcases List.mem_cons.1 hb with rfl | hb
        · show lk.assignedCores ∪ wokenTake free lk ⊆ all
          exact Finset.union_subset (hsa lk (List.mem_cons_self lk rest)) (hT.trans hfs)
        · exact hsa2 b hb

/-! ## The wake pass at the setQ level -/

theorem setQ_snd_subset (q : List Locker) (free : CPUSet) : (setQ q free).2 ⊆ free := by
  rcases q with _ | ⟨h, t⟩
  · exact fun x hx => hx
  · rw [setQ]
    split_ifs with hsh
    · exact wakeShared_snd_subset (h :: t) free 0
    · exact wake_snd_subset free h

theorem setQ_assignedUnion (q : List Locker) (free : CPUSet) :
    assignedUnion (setQ q free).1 = assignedUnion q ∪ (free \ (setQ q free).2) := by
  rcases q with _ | ⟨h, t⟩
  · simp [setQ]
  · rw [setQ]
    split_ifs with hsh
    · exact wakeShared_assignedUnion (h :: t) free 0
    · show assignedUnion ((wake free h).1 :: t) =
        assignedUnion (h :: t) ∪ (free \ (wake free h).2)
      rw [wake_eq]
      show (h.assignedCores ∪ wokenTake free h) ∪ assignedUnion t =
        (h.assignedCores ∪ assignedUnion t) ∪ (free \ (free \ wokenTake free h))
      have h1 : free \ (free \ wokenTake free h) = wokenTake free h := by
        rw [sdiff_sdiff_right_self]
        exact inf_eq_right.2 (wokenTake_subset_free free h)
      rw [h1]
      simp [Finset.union_assoc, Finset.union_left_comm, Finset.union_comm]

theorem setQ_QInv (all : CPUSet) (q : List Locker) (free : CPUSet)
    (h : QInv all q free) : QInv all (setQ q free).1 (setQ q free).2 := by
  rcases q with _ | ⟨lk, t⟩
  · simpa [setQ] using h
  · rw [setQ]
    split_ifs with hsh
    · exact wakeShared_QInv all (lk :: t) free 0 h
    · obtain ⟨hg, hu, hwf, hpd, hdf, hsa, hfs⟩ := h
      show QInv all ((wake free lk).1 :: t) (wake free lk).2
      have e1 : (wake free lk).1 =
          { lk with
            assignedCores := lk.assignedCores ∪ wokenTake free lk
            woken := true } := by rw [wake_eq]
      have e2 : (wake free lk).2 = free \ wokenTake free lk := by rw [wake_eq]
      rw [e1, e2]
      have hT : wokenTake free lk ⊆ free := wokenTake_subset_free free lk
      have hf1 : free \ wokenTake free lk ⊆ free := Finset.sdiff_subset
      refine ⟨?_, ?_, ?_, ?_, ?_, ?_, hf1.trans hfs⟩
      · intro b hb
        rcases List.mem_cons.1 hb with rfl | hb
        · exact hg lk (List.mem_cons_self lk t)
        · exact hg b (List.mem_cons_of_mem lk hb)
      · intro b hb
        rcases List.mem_cons.1 hb with rfl | hb
        · intro hw; cases hw
        · exact hu b (List.mem_cons_of_mem lk hb)
      · rw [List.pairwise_cons]
        exact ⟨fun b _ _ => rfl, (List.pairwise_cons.1 hwf).2⟩
      · rw [List.pairwise_cons]
        refine ⟨fun b hb => ?_, (List.pairwise_cons.1 hpd).2⟩
        show Disjoint (lk.assignedCores ∪ wokenTake free lk) b.assignedCores
        refine Finset.disjoint_union_left.2 ⟨(List.pairwise_cons.1 hpd).1 b hb, ?_⟩
        exact ((hdf b (List.mem_cons_of_mem lk hb)).symm).mono_left hT
      · intro b hb
        rcases List.mem_cons.1 hb with rfl | hb
        · show Disjoint (lk.assignedCores ∪ wokenTake free lk) (free \ wokenTake free lk)
          refine Finset.disjoint_union_left.2 ⟨?_, Finset.sdiff_disjoint.symm⟩
          exact (hdf lk (List.mem_cons_self lk t)).mono_right hf1
        · exact (hdf b (List.mem_cons_of_mem lk hb)).mono_right hf1
      · intro b hb
        rcases List.mem_cons.1 hb with rfl | hb
        · show lk.assignedCores ∪ wokenTake free lk ⊆ all
          exact Finset.union_subset (hsa lk (List.mem_cons_self lk t)) (hT.trans hfs)
        · exact hsa b (List.mem_cons_of_mem lk hb)

theorem setQ_free_eq (all : CPUSet) (q : List Locker) (free : CPUSet)
    (hfree : free = all \ assignedUnion q) :
    (setQ q free).2 = all \ assignedUnion (setQ q free).1 := by
  have hsub : (setQ q free).2 ⊆ free := setQ_snd_subset q free
  rw [setQ_assignedUnion,
    show assignedUnion q ∪ free \ (setQ q free).2 =
      assignedUnion q ⊔ free \ (setQ q free).2 from rfl,
    ← sdiff_sdiff, ← hfree, sdiff_sdiff_right_self]
  exact (inf_eq_right.2 hsub).symm

/-! ## Idempotence of the wake pass -/

theorem wakeShared_fix :
    ∀ (q : List Locker) (free : CPUSet) (i : Nat),
      wakeShared (wakeShared free i q).2 i (wakeShared free i q).1 = wakeShared free i q := by
  intro q
  induction q with
  | nil => intro free i; rfl
  | cons lk rest ih =>
    intro free i
    rw [wakeShared]
    split_ifs with h1 h2
    · rw [wakeShared, if_pos h1]
    · rw [wakeShared, if_neg h1, if_pos h2]
    · show wakeShared (wakeShared (wake free lk).2 (i + 1) rest).2 i
          ((wake free lk).1 :: (wakeShared (wake free lk).2 (i + 1) rest).1) =
        ((wake free lk).1 :: (wakeShared (wake free lk).2 (i + 1) rest).1,
          (wakeShared (wake free lk).2 (i + 1) rest).2)
      rw [wakeShared]
      rw [if_neg (by rw [wake_fst_shared]; exact h1)]
      rw [if_neg (by rw [wake_fst_woken]; simp)]
      show ((wake (wakeShared (wake free lk).2 (i + 1) rest).2 (wake free lk).1).1 ::
            (wakeShared
              (wake (wakeShared (wake free lk).2 (i + 1) rest).2 (wake free lk).1).2
              (i + 1) (wakeShared (wake free lk).2 (i + 1) rest).1).1,
          (wakeShared
            (wake (wakeShared (wake free lk).2 (i + 1) rest).2 (wake free lk).1).2
            (i + 1) (wakeShared (wake free lk).2 (i + 1) rest).1).2) = _
      rw [wake_woken_noop _ _ (wake_fst_woken free lk)]
      rw [ih (wake free lk).2 (i + 1)]

theorem setQ_fix (q : List Locker) (free : CPUSet) :
    setQ (setQ q free).1 (setQ q free).2 = setQ q free := by
  rcases q with _ | ⟨h, t⟩
  · rfl
  · by_cases hsh : h.shared
    · rw [setQ, if_pos hsh]
      have hstep : wakeShared free 0 (h :: t) =
          ((wake free h).1 :: (wakeShared (wake free h).2 1 t).1,
            (wakeShared (wake free h).2 1 t).2) := by
        rw [wakeShared]
        rw [if_neg (by rw [hsh]; simp), if_neg (by simp)]
      rw [hstep]
      rw [setQ]
      rw [if_pos (by rw [wake_fst_shared]; exact hsh)]
      have hfix := wakeShared_fix (h :: t) free 0
      rw [hstep] at hfix
      exact hfix
    · rw [setQ, if_neg hsh]
      show setQ ((wake free h).1 :: t) (wake free h).2 = _
      rw [setQ]
      rw [if_neg (by rw [wake_fst_shared]; exact hsh)]
      rw [wake_woken_noop _ _ (wake_fst_woken free h)]

theorem enqueue_state_is_setQ_image (st : PerfLock) (shared nonblocking : Bool)
    (wantCores : Nat) (set : CPUSet) :
    ∃ X Y, (Enqueue st shared nonblocking wantCores set).1 = ⟨(setQ X Y).1, (setQ X Y).2⟩ := by
  unfold Enqueue
  dsimp only
  split
  · exact ⟨_, _, rfl⟩
  · exact ⟨_, _, rfl⟩

theorem dequeue_state_is_setQ_image (st : PerfLock) (i : Nat) :
    Dequeue st i = st ∨ ∃ X Y, Dequeue st i = ⟨(setQ X Y).1, (setQ X Y).2⟩ := by
  unfold Dequeue
  rcases hm : st.q.get? i with _ | lk
  · exact Or.inl rfl
  · exact Or.inr ⟨_, _, rfl⟩

/-- Every reachable state is a fixed point of the wake pass: running setQ
on it changes nothing.  This holds because every operation ends by running
the wake pass, and the wake pass is idempotent. -/
theorem reach_fix (all : CPUSet) (st : PerfLock) (h : Reach all st) :
    setQ st.q st.cores = (st.q, st.cores) := by
  induction h with
  | init => rfl
  | enq st sh nb w av _ _ _ _ =>
    obtain ⟨X, Y, hXY⟩ := enqueue_state_is_setQ_image st sh nb w av
    rw [hXY]
    exact setQ_fix X Y
  | deq st i hr _ ih =>
    rcases dequeue_state_is_setQ_image st i with heq | ⟨X, Y, hXY⟩
    · rw [heq]; exact ih
    · rw [hXY]
      exact setQ_fix X Y

/-! ## Queue surgery lemmas -/

theorem wakeShared_length :
    ∀ (q : List Locker) (free : CPUSet) (i : Nat),
      (wakeShared free i q).1.length = q.length := by
  intro q
  induction q with
  | nil => intro free i; rfl
  | cons lk rest ih =>
    intro free i
    rw [wakeShared]
    split_ifs with h1 h2
    · rfl
    · rfl
    · show ((wake free lk).1 :: (wakeShared (wake free lk).2 (i + 1) rest).1).length = _
      rw [List.length_cons, List.length_cons, ih]

theorem setQ_length (q : List Locker) (free : CPUSet) :
    (setQ q free).1.length = q.length := by
  rcases q with _ | ⟨h, t⟩
  · rfl
  · rw [setQ]
    split_ifs with hsh
    · exact wakeShared_length (h :: t) free 0
    · rfl

theorem getLastD_mem {α : Type} (q : List α) (d : α) (h : q ≠ []) : q.getLastD d ∈ q := by
  induction q generalizing d with
  | nil => exact absurd rfl h
  | cons a t ih =>
    rw [List.getLastD_cons]
    rcases t with _ | ⟨b, t⟩
    · simp
    · exact List.mem_cons_of_mem a (ih a (List.cons_ne_nil b t))

theorem assignedUnion_dropLast (q : List Locker) (d : Locker) (h : q ≠ []) :
    assignedUnion q = assignedUnion q.dropLast ∪ (q.getLastD d).assignedCores := by
  induction q generalizing d with
  | nil => exact absurd rfl h
  | cons a t ih =>
    rw [List.getLastD_cons]
    rcases t with _ | ⟨b, t⟩
    · simp [Finset.union_comm]
    · rw [List.dropLast_cons₂, assignedUnion_cons, ih a (List.cons_ne_nil b t),
        assignedUnion_cons, Finset.union_assoc]

theorem QInv_sublist (all : CPUSet) {q' q : List Locker} (free : CPUSet)
    (hs : q'.Sublist q) (h : QInv all q free) : QInv all q' free := by
  obtain ⟨hg, hu, hwf, hpd, hdf, hsa, hfs⟩ := h
  exact ⟨fun b hb => hg b (hs.subset hb), fun b hb => hu b (hs.subset hb),
    hwf.sublist hs, hpd.sublist hs, fun b hb => hdf b (hs.subset hb),
    fun b hb => hsa b (hs.subset hb), hfs⟩

theorem QInv_append_new (all : CPUSet) (q : List Locker) (free : CPUSet)
    (shared : Bool) (w : Nat) (av : CPUSet)
    (h : QInv all q free) (hwle : w ≤ CPUSet.count av) (hsuba : av ⊆ all) :
    QInv all (q ++ [mkLocker shared w av]) free := by
  obtain ⟨hg, hu, hwf, hpd, hdf, hsa, hfs⟩ := h
  have hnew : ∀ b ∈ [mkLocker shared w av], b = mkLocker shared w av := by
    intro b hb; exact List.mem_singleton.1 hb
  refine ⟨?_, ?_, ?_, ?_, ?_, ?_, hfs⟩
  · intro b hb
    rcases List.mem_append.1 hb with hb | hb
    · exact hg b hb
    · rw [hnew b hb]; exact ⟨hsuba, hwle⟩
  · intro b hb
    rcases List.mem_append.1 hb with hb | hb
    · exact hu b hb
    · rw [hnew b hb]; intro; rfl
  · refine List.pairwise_append.2 ⟨hwf, List.pairwise_singleton _ _, ?_⟩
    intro a _ b hb
    rw [hnew b hb]
    intro habs
    cases habs
  · refine List.pairwise_append.2 ⟨hpd, List.pairwise_singleton _ _, ?_⟩
    intro a _ b hb
    rw [hnew b hb]
    exact Finset.disjoint_empty_right _
  · intro b hb
    rcases List.mem_append.1 hb with hb | hb
    · exact hdf b hb
    · rw [hnew b hb]; exact Finset.disjoint_empty_left _
  · intro b hb
    rcases List.mem_append.1 hb with hb | hb
    · exact hsa b hb
    · rw [hnew b hb]; exact Finset.empty_subset all

theorem erase_mid_disjoint (all : CPUSet) (pre post : List Locker) (lk : Locker)
    (free : CPUSet) (h : QInv all (pre ++ lk :: post) free) :
    ∀ b ∈ pre ++ post, Disjoint b.assignedCores lk.assignedCores := by
  obtain ⟨-, -, -, hpd, -, -, -⟩ := h
  obtain ⟨hp1, hp2, hp12⟩ := List.pairwise_append.1 hpd
  intro b hb
  rcases List.mem_append.1 hb with hb | hb
  · exact hp12 b hb lk (List.mem_cons_self lk post)
  · exact ((List.pairwise_cons.1 hp2).1 b hb).symm

theorem QInv_erase_mid (all : CPUSet) (pre post : List Locker) (lk : Locker)
    (free : CPUSet) (h : QInv all (pre ++ lk :: post) free) :
    QInv all (pre ++ post) (free ∪ lk.assignedCores) := by
  have hlkd := erase_mid_disjoint all pre post lk free h
  obtain ⟨hg, hu, hwf, hpd, hdf, hsa, hfs⟩ := h
  have hs : (pre ++ post).Sublist (pre ++ lk :: post) :=
    (List.sublist_cons_self lk post).append_left pre
  have hmid : lk ∈ pre ++ lk :: post :=
    List.mem_append.2 (Or.inr (List.mem_cons_self lk post))
  refine ⟨fun b hb => hg b (hs.subset hb), fun b hb => hu b (hs.subset hb),
    hwf.sublist hs, hpd.sublist hs, ?_, fun b hb => hsa b (hs.subset hb),
    Finset.union_subset hfs (hsa lk hmid)⟩
  intro b hb
  exact Finset.disjoint_union_right.2 ⟨hdf b (hs.subset hb), hlkd b hb⟩

theorem free_eq_erase_mid (all : CPUSet) (pre post : List Locker) (lk : Locker)
    (free : CPUSet) (h : QInv all (pre ++ lk :: post) free)
    (hfeq : free = all \ assignedUnion (pre ++ lk :: post)) :
    free ∪ lk.assignedCores = all \ assignedUnion (pre ++ post) := by
  have hlkd := erase_mid_disjoint all pre post lk free h
  obtain ⟨-, -, -, -, -, hsa, -⟩ := h
  have hmid : lk ∈ pre ++ lk :: post :=
    List.mem_append.2 (Or.inr (List.mem_cons_self lk post))
  have hAall : lk.assignedCores ⊆ all := hsa lk hmid
  have hAdisj : Disjoint lk.assignedCores (assignedUnion (pre ++ post)) := by
    refine disjoint_assignedUnion ?_
    intro b hb
    exact (hlkd b hb).symm
  have hUq : assignedUnion (pre ++ lk :: post) =
      assignedUnion (pre ++ post) ∪ lk.assignedCores := by
    rw [assignedUnion_append, assignedUnion_append, assignedUnion_cons]
    simp [Finset.union_assoc, Finset.union_left_comm, Finset.union_comm]
  rw [hfeq, hUq,
    show assignedUnion (pre ++ post) ∪ lk.assignedCores =
      assignedUnion (pre ++ post) ⊔ lk.assignedCores from rfl,
    ← sdiff_sdiff]
  exact Finset.sdiff_union_of_subset
    (Finset.subset_sdiff.2 ⟨hAall, hAdisj⟩)

/-- The master reachability invariant: every state reachable by Enqueue and
Dequeue satisfies the queue invariant, and its free pool is exactly the
startup core set minus the union of the queued Lockers' assigned cores. -/
theorem reach_FullInv (all : CPUSet) (st : PerfLock) (h : Reach all st) :
    QInv all st.q st.cores ∧ st.cores = all \ assignedUnion st.q := by
  induction h with
  | init =>
    refine ⟨⟨?_, ?_, ?_, ?_, ?_, ?_, subset_rfl⟩, by simp⟩ <;> simp
  | enq st sh nb w av hr hwle hsuba ih =>
    obtain ⟨hQ, hfeq⟩ := ih
    have hQ0 : QInv all (st.q ++ [mkLocker sh w av]) st.cores :=
      QInv_append_new all st.q st.cores sh w av hQ hwle hsuba
    have hfeq0 : st.cores = all \ assignedUnion (st.q ++ [mkLocker sh w av]) := by
      rw [assignedUnion_append]
      simpa [mkLocker] using hfeq
    have hQ1 := setQ_QInv all _ _ hQ0
    have hfeq1 := setQ_free_eq all _ _ hfeq0
    show QInv all (Enqueue st sh nb w av).1.q (Enqueue st sh nb w av).1.cores ∧
      (Enqueue st sh nb w av).1.cores = all \ assignedUnion (Enqueue st sh nb w av).1.q
    unfold Enqueue
    dsimp only
    split
    next hcond =>
      have hcond' := hcond
      rw [Bool.and_eq_true] at hcond'
      have hlastw : ((setQ (st.q ++ [mkLocker sh w av]) st.cores).1.getLastD
          (mkLocker sh w av)).woken = false := by
        simpa using hcond'.2
      have hne : (setQ (st.q ++ [mkLocker sh w av]) st.cores).1 ≠ [] := by
        intro habs
        have := setQ_length (st.q ++ [mkLocker sh w av]) st.cores
        rw [habs] at this
        simp at this
      have hlast_mem := getLastD_mem _ (mkLocker sh w av) hne
      have hlast_empty : ((setQ (st.q ++ [mkLocker sh w av]) st.cores).1.getLastD
          (mkLocker sh w av)).assignedCores = ∅ := by
        obtain ⟨-, hu1, -, -, -, -, -⟩ := hQ1
        exact hu1 _ hlast_mem hlastw
      have hQd : QInv all (setQ (st.q ++ [mkLocker sh w av]) st.cores).1.dropLast
          (setQ (st.q ++ [mkLocker sh w av]) st.cores).2 :=
        QInv_sublist all _ (List.dropLast_sublist _) hQ1
      have hfeqd : (setQ (st.q ++ [mkLocker sh w av]) st.cores).2 =
          all \ assignedUnion (setQ (st.q ++ [mkLocker sh w av]) st.cores).1.dropLast := by
        rw [hfeq1, assignedUnion_dropLast _ (mkLocker sh w av) hne, hlast_empty,
          Finset.union_empty]
      exact ⟨setQ_QInv all _ _ hQd, setQ_free_eq all _ _ hfeqd⟩
    next hcond =>
      exact ⟨hQ1, hfeq1⟩
  | deq st i hr hi ih =>
    obtain ⟨hQ, hfeq⟩ := ih
    have hget : st.q.get? i = some st.q[i] := by
      rw [List.get?_eq_getElem?]
      exact List.getElem?_eq_getElem hi
    have hdecomp : st.q = st.q.take i ++ st.q[i] :: st.q.drop (i + 1) := by
      conv_lhs => rw [← List.take_append_drop i st.q]
      rw [List.drop_eq_getElem_cons hi]
    have herase : st.q.eraseIdx i = st.q.take i ++ st.q.drop (i + 1) :=
      List.eraseIdx_eq_take_drop_succ st.q i
    have hQmid : QInv all (st.q.take i ++ st.q[i] :: st.q.drop (i + 1)) st.cores := by
      rw [← hdecomp]; exact hQ
    have hfeqmid : st.cores =
        all \ assignedUnion (st.q.take i ++ st.q[i] :: st.q.drop (i + 1)) := by
      rw [← hdecomp]; exact hfeq
    have hQe : QInv all (st.q.eraseIdx i) (st.cores ∪ st.q[i].assignedCores) := by
      rw [herase]
      exact QInv_erase_mid all _ _ _ _ hQmid
    have hfeqe : st.cores ∪ st.q[i].assignedCores =
        all \ assignedUnion (st.q.eraseIdx i) := by
      rw [herase]
      exact free_eq_erase_mid all _ _ _ _ hQmid hfeqmid
    show QInv all (Dequeue st i).q (Dequeue st i).cores ∧
      (Dequeue st i).cores = all \ assignedUnion (Dequeue st i).q
    unfold Dequeue
    rw [hget]
    exact ⟨setQ_QInv all _ _ hQe, setQ_free_eq all _ _ hfeqe⟩

/-- Claim C4.  In every state reachable by any sequence of Enqueue and
Dequeue operations, the assigned core sets of the queued Lockers are
pairwise disjoint and disjoint from the free pool, and the free pool equals
the initial all-cores set minus the union of all queued Lockers' assigned
cores. -/
theorem reach_core_accounting (all : CPUSet) (st : PerfLock) (h : Reach all st) :
    List.Pairwise (fun a b => Disjoint a.assignedCores b.assignedCores) st.q ∧
      (∀ lk ∈ st.q, Disjoint lk.assignedCores st.cores) ∧
      st.cores = CPUSet.difference all (assignedUnion st.q) := by
  obtain ⟨⟨-, -, -, hpd, hdf, -, -⟩, hfeq⟩ := reach_FullInv all st h
  exact ⟨hpd, hdf, hfeq⟩

/-- Witness for C4 at a concrete reachable state: on a two-core system a
shared Locker reserving one core has been enqueued and woken. -/
theorem reach_core_accounting_witness :
    List.Pairwise (fun a b => Disjoint a.assignedCores b.assignedCores)
        (Enqueue ⟨[], ({0, 1} : CPUSet)⟩ true false 1 {0, 1}).1.q ∧
      (∀ lk ∈ (Enqueue ⟨[], ({0, 1} : CPUSet)⟩ true false 1 {0, 1}).1.q,
        Disjoint lk.assignedCores (Enqueue ⟨[], ({0, 1} : CPUSet)⟩ true false 1 {0, 1}).1.cores) ∧
      (Enqueue ⟨[], ({0, 1} : CPUSet)⟩ true false 1 {0, 1}).1.cores =
        CPUSet.difference {0, 1}
          (assignedUnion (Enqueue ⟨[], ({0, 1} : CPUSet)⟩ true false 1 {0, 1}).1.q) :=
  reach_core_accounting {0, 1} _
    (Reach.enq _ true false 1 {0, 1} Reach.init (by decide) subset_rfl)

/-! ## Claim C2: the shared-head wake walk against the spec's description -/

/-- Modelled from the spec (section 4.4, wake pass, shared head): walk the
queue in order, waking each shared Locker, and stop without waking at the
first entry that is either non-shared, or is an unwoken shared entry with
want_cores > 0 for which free_cores.count() < want_cores.  Unlike the
code's loop this walk applies the core-availability stop rule at every
position, the head included. -/
def specWakePass (free : CPUSet) : List Locker → List Locker × CPUSet
  | [] => ([], free)
  | locker :: rest =>
    if locker.shared = false then (locker :: rest, free)
    else if locker.woken = false ∧ 0 < locker.wantCores ∧
        CPUSet.count free < locker.wantCores then
      (locker :: rest, free)
    else
      let p := wake free locker
      let q := specWakePass p.2 rest
      (p.1 :: q.1, q.2)

theorem wakeShared_eq_specWakePass_of_ne_zero :
    ∀ (q : List Locker) (free : CPUSet) (i : Nat), i ≠ 0 →
      wakeShared free i q = specWakePass free q := by
  intro q
  induction q with
  | nil => intro free i _; rfl
  | cons lk rest ih =>
    intro free i hi
    rw [wakeShared, specWakePass]
    by_cases h1 : lk.shared = false
    · rw [if_pos h1, if_pos h1]
    · rw [if_neg h1, if_neg h1]
      by_cases h2 : lk.woken = false ∧ 0 < lk.wantCores ∧
          CPUSet.count free < lk.wantCores
      · rw [if_pos ⟨hi, h2.1, Nat.pos_iff_ne_zero.1 h2.2.1, h2.2.2⟩, if_pos h2]
      · rw [if_neg fun hc => h2 ⟨hc.2.1, Nat.pos_of_ne_zero hc.2.2.1, hc.2.2.2⟩,
          if_neg h2]
        show ((wake free lk).1 :: (wakeShared (wake free lk).2 (i + 1) rest).1,
            (wakeShared (wake free lk).2 (i + 1) rest).2) = _
        rw [ih (wake free lk).2 (i + 1) (Nat.succ_ne_zero i)]

/-- Claim C2.  When the head of the queue is shared, the wake pass is
exactly the walk the spec describes: wake each shared Locker in order and
stop, without waking or skipping it, at the first entry that is non-shared
or is an unwoken shared entry whose core demand exceeds the current free
count.  The hypotheses are the queue invariant, which holds whenever the
code runs the wake pass; they rule out the one situation where the code's
loop (which never applies the core check at index 0) could diverge from the
spec's walk, namely an unwoken head demanding more cores than are free,
which is impossible because an unwoken head means nobody holds cores. -/
theorem setQ_shared_head_matches_spec (all : CPUSet) (q : List Locker)
    (free : CPUSet) (hinv : QInv all q free)
    (hfree : free = CPUSet.difference all (assignedUnion q))
    (h : Locker) (t : List Locker) (hq : q = h :: t) (hsh : h.shared = true) :
    setQ q free = specWakePass free q := by
  subst hq
  obtain ⟨hg, hu, hwf, hpd, hdf, hsa, hfs⟩ := hinv
  rw [setQ, if_pos hsh, wakeShared, specWakePass]
  rw [if_neg (show ¬h.shared = false by rw [hsh]; simp)]
  rw [if_neg (show ¬((0 : Nat) ≠ 0 ∧ h.woken = false ∧ h.wantCores ≠ 0 ∧
    CPUSet.count free < h.wantCores) by simp)]
  rw [if_neg (show ¬h.shared = false by rw [hsh]; simp)]
  by_cases hw : h.woken = false
  · have hall : free = all := by
      have hnone : ∀ lk ∈ h :: t, lk.woken = false := by
        intro lk hlk
        rcases List.mem_cons.1 hlk with rfl | hlk
        · exact hw
        · rcases Bool.eq_false_or_eq_true lk.woken with hlw | hlw
          · exact absurd ((List.pairwise_cons.1 hwf).1 lk hlk hlw) (by rw [hw]; simp)
          · exact hlw
      have hempty : assignedUnion (h :: t) = ∅ :=
        assignedUnion_eq_empty fun lk hlk => hu lk hlk (hnone lk hlk)
      rw [hfree, hempty]
      show all \ (∅ : CPUSet) = all
      exact Finset.sdiff_empty
    have hcount : ¬CPUSet.count free < h.wantCores := by
      have h1 : h.wantCores ≤ CPUSet.count h.availCores :=
        (hg h (List.mem_cons_self h t)).2
      have h2 : CPUSet.count h.availCores ≤ CPUSet.count all :=
        Finset.card_le_card (hg h (List.mem_cons_self h t)).1
      rw [hall]
      exact Nat.not_lt.2 (h1.trans h2)
    rw [if_neg fun hc => hcount hc.2.2]
    show ((wake free h).1 :: (wakeShared (wake free h).2 (0 + 1) t).1,
        (wakeShared (wake free h).2 (0 + 1) t).2) = _
    rw [wakeShared_eq_specWakePass_of_ne_zero t (wake free h).2 (0 + 1) Nat.one_ne_zero]
  · rw [if_neg fun hc => hw hc.1]
    show ((wake free h).1 :: (wakeShared (wake free h).2 (0 + 1) t).1,
        (wakeShared (wake free h).2 (0 + 1) t).2) = _
    rw [wakeShared_eq_specWakePass_of_ne_zero t (wake free h).2 (0 + 1) Nat.one_ne_zero]

/-- Witness for C2 at a concrete input: a two-element queue on a one-core
system, the shared head woken and holding the core, behind it a shared
waiter demanding the core; both walks stop at the waiter. -/
theorem setQ_shared_head_matches_spec_witness :
    setQ [⟨1, {0}, {0}, true, true⟩, ⟨1, {0}, ∅, true, false⟩] ∅ =
      specWakePass ∅ [⟨1, {0}, {0}, true, true⟩, ⟨1, {0}, ∅, true, false⟩] :=
  setQ_shared_head_matches_spec {0}
    [⟨1, {0}, {0}, true, true⟩, ⟨1, {0}, ∅, true, false⟩] ∅
    ⟨by
      intro lk hlk
      rcases List.mem_cons.1 hlk with rfl | hlk
      · exact ⟨subset_rfl, by decide⟩
      · rw [List.mem_singleton.1 hlk]
        exact ⟨subset_rfl, by decide⟩,
     by
      intro lk hlk
      rcases List.mem_cons.1 hlk with rfl | hlk
      · intro habs; simp at habs
      · rw [List.mem_singleton.1 hlk]
        intro; rfl,
     List.pairwise_cons.2 ⟨fun b _ _ => rfl, List.pairwise_singleton _ _⟩,
     List.pairwise_cons.2
       ⟨fun b hb => by
          rw [List.mem_singleton.1 hb]
          exact Finset.disjoint_empty_right _,
        List.pairwise_singleton _ _⟩,
     fun lk _ => Finset.disjoint_empty_right _,
     by
      intro lk hlk
      rcases List.mem_cons.1 hlk with rfl | hlk
      · exact subset_rfl
      · rw [List.mem_singleton.1 hlk]
        exact Finset.empty_subset _,
     Finset.empty_subset _⟩
    (by rfl) _ _ rfl rfl

/-! ## Claim C5: the non-blocking Enqueue frame property -/

theorem wakeShared_append_of_fix :
    ∀ (q : List Locker) (free : CPUSet) (i : Nat) (nw : Locker),
      wakeShared free i q = (q, free) →
      wakeShared free i (q ++ [nw]) = (q ++ [nw], free) ∨
        ∃ nw' f', wakeShared free i (q ++ [nw]) = (q ++ [nw'], f') ∧ nw'.woken = true := by
  intro q
  induction q with
  | nil =>
    intro free i nw _
    rw [List.nil_append, wakeShared]
    split_ifs with h1 h2
    · exact Or.inl rfl
    · exact Or.inl rfl
    · refine Or.inr ⟨(wake free nw).1, (wake free nw).2, ?_, wake_fst_woken free nw⟩
      show ((wake free nw).1 :: (wakeShared (wake free nw).2 (i + 1) []).1,
          (wakeShared (wake free nw).2 (i + 1) []).2) = _
      rfl
  | cons lk rest ih =>
    intro free i nw hfix
    rw [List.cons_append, wakeShared]
    rw [wakeShared] at hfix
    split_ifs with h1 h2
    · exact Or.inl rfl
    · exact Or.inl rfl
    · rw [if_neg h1, if_neg h2] at hfix
      have hfix' : ((wake free lk).1 :: (wakeShared (wake free lk).2 (i + 1) rest).1,
          (wakeShared (wake free lk).2 (i + 1) rest).2) = (lk :: rest, free) := hfix
      have hl : (wake free lk).1 :: (wakeShared (wake free lk).2 (i + 1) rest).1 =
          lk :: rest := congrArg Prod.fst hfix'
      rw [List.cons.injEq] at hl
      obtain ⟨hwl, hrl⟩ := hl
      have hf : (wakeShared (wake free lk).2 (i + 1) rest).2 = free :=
        congrArg Prod.snd hfix'
      have hw2 : (wake free lk).2 = free := by
        have hsub := wakeShared_snd_subset rest (wake free lk).2 (i + 1)
        rw [hf] at hsub
        exact le_antisymm (wake_snd_subset free lk) hsub
      have hW : wakeShared (wake free lk).2 (i + 1) rest = (rest, free) :=
        Prod.ext hrl hf
      rw [hw2] at hW
      rcases ih free (i + 1) nw hW with hl2 | ⟨nw', f', heq, hwk⟩
      · refine Or.inl ?_
        show ((wake free lk).1 :: (wakeShared (wake free lk).2 (i + 1) (rest ++ [nw])).1,
            (wakeShared (wake free lk).2 (i + 1) (rest ++ [nw])).2) = _
        rw [hw2, hl2, hwl]
      · refine Or.inr ⟨nw', f', ?_, hwk⟩
        show ((wake free lk).1 :: (wakeShared (wake free lk).2 (i + 1) (rest ++ [nw])).1,
            (wakeShared (wake free lk).2 (i + 1) (rest ++ [nw])).2) = _
        rw [hw2, heq, hwl]
        rfl

theorem setQ_append_of_fix (q : List Locker) (free : CPUSet) (nw : Locker)
    (hfix : setQ q free = (q, free)) :
    setQ (q ++ [nw]) free = (q ++ [nw], free) ∨
      ∃ nw' f', setQ (q ++ [nw]) free = (q ++ [nw'], f') ∧ nw'.woken = true := by
  rcases q with _ | ⟨h, t⟩
  · rw [List.nil_append, setQ]
    split_ifs with hsh
    · rw [wakeShared]
      rw [if_neg (by rw [hsh]; simp), if_neg (by simp)]
      refine Or.inr ⟨(wake free nw).1, (wake free nw).2, ?_, wake_fst_woken free nw⟩
      show ((wake free nw).1 :: (wakeShared (wake free nw).2 (0 + 1) []).1,
          (wakeShared (wake free nw).2 (0 + 1) []).2) = _
      rfl
    · exact Or.inr ⟨(wake free nw).1, (wake free nw).2, rfl, wake_fst_woken free nw⟩
  · rw [setQ] at hfix
    by_cases hsh : h.shared
    · rw [if_pos hsh] at hfix
      rw [List.cons_append, setQ, if_pos hsh, ← List.cons_append]
      exact wakeShared_append_of_fix (h :: t) free 0 nw hfix
    · rw [if_neg hsh] at hfix
      have hfix' : ((wake free h).1 :: t, (wake free h).2) = (h :: t, free) := hfix
      have hl : (wake free h).1 :: t = h :: t := congrArg Prod.fst hfix'
      rw [List.cons.injEq] at hl
      have hf : (wake free h).2 = free := congrArg Prod.snd hfix'
      rw [List.cons_append, setQ, if_neg hsh]
      refine Or.inl ?_
      show ((wake free h).1 :: (t ++ [nw]), (wake free h).2) = _
      rw [hl.1, hf]

/-- Claim C5.  A non-blocking Enqueue whose wake pass leaves the newly
appended Locker unwoken returns nil and leaves the lock state — queue
contents, every existing Locker's woken flag and assignedCores, and the
free pool — exactly as it was before the call. -/
theorem enqueue_nonblocking_frame (all : CPUSet) (st : PerfLock) (hR : Reach all st)
    (shared : Bool) (w : Nat) (av : CPUSet)
    (hw : ((setQ (st.q ++ [mkLocker shared w av]) st.cores).1.getLastD
        (mkLocker shared w av)).woken = false) :
    Enqueue st shared true w av = (st, none) := by
  have hfix := reach_fix all st hR
  rcases setQ_append_of_fix st.q st.cores (mkLocker shared w av) hfix with
    hL | ⟨nw', f', heq, hwoken⟩
  · show Enqueue st shared true w av = (st, none)
    unfold Enqueue
    dsimp only
    rw [hL]
    rw [List.getLastD_concat, List.dropLast_concat]
    rw [if_pos (by simp [mkLocker])]
    rw [hfix]
  · rw [heq, List.getLastD_concat, hwoken] at hw
    cases hw

/-- Witness for C5 at a concrete input: on a one-core system an exclusive
holder is at the head; a non-blocking shared Acquire cannot be woken,
returns nil, and leaves the state untouched. -/
theorem enqueue_nonblocking_frame_witness :
    Enqueue (Enqueue ⟨[], ({0} : CPUSet)⟩ false false 0 {0}).1 true true 0 {0} =
      ((Enqueue ⟨[], ({0} : CPUSet)⟩ false false 0 {0}).1, none) :=
  enqueue_nonblocking_frame {0} _
    (Reach.enq _ false false 0 {0} Reach.init (by decide) subset_rfl)
    true 0 {0} (by rfl)

/-! ## Claim C3: the takeCores postcondition assertion can fire -/

/-- Claim C3 (refuting exhibit).  A state reachable with Serve's admission
guard in force in which the wake pass has woken a Locker whose
assignedCores popcount is not wantCores.  On a two-core system, Locker A
(shared, wants 1 core, allowed on both cores) is enqueued and takes core 0;
Locker B (shared, wants 1 core, allowed only on core 0) is then enqueued:
the wake pass's admission check sees one free core and wakes B, but
takeCores finds free ∩ avail empty and assigns nothing.  The entry
assertion of that takeCores call holds while its postcondition assertion is
false — in the Go program this assertion panics the daemon, and the woken
Locker B violates the claimed on-wake postcondition. -/
theorem takeCores_post_assert_fires :
    (Enqueue (Enqueue ⟨[], ({0, 1} : CPUSet)⟩ true false 1 {0, 1}).1 true false 1 {0}).1 =
      ⟨[⟨1, {0, 1}, {0}, true, true⟩, ⟨1, {0}, ∅, true, true⟩], {1}⟩ ∧
    Reach ({0, 1} : CPUSet)
      ⟨[⟨1, {0, 1}, {0}, true, true⟩, ⟨1, {0}, ∅, true, true⟩], {1}⟩ ∧
    takeCoresEntryAssert {1} (mkLocker true 1 {0}) ∧
    ¬takeCoresPostAssert (takeCores {1} (mkLocker true 1 {0})).1 ∧
    (⟨1, {0}, ∅, true, true⟩ : Locker).woken = true ∧
    CPUSet.count (⟨1, {0}, ∅, true, true⟩ : Locker).assignedCores ≠
      (⟨1, {0}, ∅, true, true⟩ : Locker).wantCores := by
  refine ⟨rfl, ?_, (by decide : (1 : Nat) ≤ CPUSet.count ({1} : CPUSet)), ?_, rfl,
    by decide⟩
  · exact Reach.enq _ true false 1 {0}
      (Reach.enq _ true false 1 {0, 1} Reach.init (by decide) subset_rfl)
      (by decide) (Finset.singleton_subset_iff.2 (by decide))
  · intro habs
    have h01 : (0 : Nat) = 1 := habs
    cases h01

/-! ## The session's Acquire admission check (Server.Serve, ActionAcquire) -/

/-- Embeds ActionAcquireResponse of protocol.go. -/
structure ActionAcquireResponse where
  Acquired : Bool := false
  Cores : CPUSet := ∅
  Err : String := ""
deriving DecidableEq

/-- The error text Serve formats for an over-request:
fmt.Errorf("requested %d cores, but process only has %d available (system
has %d)", action.Cores, availCores.Count(), allCores.Count()). -/
def overRequestErr (cores availCount allCount : Nat) : String :=
  "requested " ++ toString cores ++ " cores, but process only has " ++
    toString availCount ++ " available (system has " ++ toString allCount ++ ")"

/-- The outcome of handling one ActionAcquire. -/
inductive AcquireStep where
  /-- The response was sent and the handler returned: Serve exits, the
  deferred drop runs and the connection closes.  The lock state carried is
  the daemon state, untouched. -/
  | rejected (resp : ActionAcquireResponse) (lock : PerfLock)
  /-- Non-blocking Enqueue returned nil: an empty response is sent and the
  session stays in its message loop. -/
  | notAcquired (resp : ActionAcquireResponse) (lock : PerfLock)
  /-- A Locker was enqueued; the session waits on its grant channel. -/
  | enqueued (lock : PerfLock) (locker : Locker)
deriving DecidableEq

/-- Embeds the ActionAcquire branch of Server.Serve, after the protocol
check (s.locker == nil) passed and cpuset.CPUSetOfPid(action.Pid) returned
availCores:

  if action.Cores > uint(availCores.Count()) {
    send(gw, ActionAcquireResponse{Err: ...})
    return
  }
  s.locker = theLock.Enqueue(action.Shared, action.NonBlocking, action.Cores, availCores, msg)
  ...

allCores is the daemon-wide core set captured at startup. -/
def serveAcquire (lock : PerfLock) (cores : Nat) (shared nonblocking : Bool)
    (availCores allCores : CPUSet) : AcquireStep :=
  if CPUSet.count availCores < cores then
    AcquireStep.rejected
      { Err := overRequestErr cores (CPUSet.count availCores) (CPUSet.count allCores) }
      lock
  else
    match Enqueue lock shared nonblocking cores availCores with
    | (st, some locker) => AcquireStep.enqueued st locker
    | (st, none) => AcquireStep.notAcquired {} st

theorem overRequestErr_ne_empty (cores availCount allCount : Nat) :
    overRequestErr cores availCount allCount ≠ "" := by
  intro habs
  have hdata := congrArg String.data habs
  rw [overRequestErr] at hdata
  simp only [String.data_append] at hdata
  rcases List.append_eq_nil.1 hdata with ⟨h1, -⟩
  rcases List.append_eq_nil.1 h1 with ⟨h2, -⟩
  rcases List.append_eq_nil.1 h2 with ⟨h3, -⟩
  rcases List.append_eq_nil.1 h3 with ⟨h4, -⟩
  rcases List.append_eq_nil.1 h4 with ⟨h5, -⟩
  cases h5

/-- Claim C6.  An Acquire requesting more cores than the popcount of the
requester's available set is answered with an AcquireResponse whose err
field is exactly "requested N cores, but process only has M available
(system has S)" (non-empty), the handler returns (closing the connection),
and no Locker is enqueued: the lock state is the one from before the
request. -/
theorem acquire_over_request_rejected (lock : PerfLock) (cores : Nat)
    (shared nonblocking : Bool) (availCores allCores : CPUSet)
    (h : CPUSet.count availCores < cores) :
    serveAcquire lock cores shared nonblocking availCores allCores =
      AcquireStep.rejected
        { Acquired := false, Cores := ∅,
          Err := overRequestErr cores (CPUSet.count availCores) (CPUSet.count allCores) }
        lock ∧
      overRequestErr cores (CPUSet.count availCores) (CPUSet.count allCores) ≠ "" := by
  constructor
  · rw [serveAcquire, if_pos h]
  · exact overRequestErr_ne_empty _ _ _

/-- Witness for C6 at a concrete input: a process allowed one core asks for
two on a one-core system. -/
theorem acquire_over_request_rejected_witness :
    serveAcquire ⟨[], {0}⟩ 2 false false {0} {0} =
      AcquireStep.rejected
        { Acquired := false, Cores := ∅,
          Err := overRequestErr 2 (CPUSet.count ({0} : CPUSet))
            (CPUSet.count ({0} : CPUSet)) }
        ⟨[], {0}⟩ ∧
      overRequestErr 2 (CPUSet.count ({0} : CPUSet)) (CPUSet.count ({0} : CPUSet)) ≠ "" :=
  acquire_over_request_rejected ⟨[], {0}⟩ 2 false false {0} {0} (by decide)

/-! ## Governor save / apply / restore (Server.setGovernor, restoreGovernor, drop) -/

/-- A cpufreq policy domain.  The adapter package (internal/cpupower) is
not among the given sources; domains are opaque identities here and every
interaction with one goes through a GovEnv. -/
structure Domain where
  id : Nat
deriving DecidableEq

/-- Embeds the governorSettings struct of the daemon: a domain together
with the (min, max) range saved before the session changed it. -/
structure governorSettings where
  domain : Domain
  min : Int
  max : Int
deriving DecidableEq

/-- One SetRange invocation: the domain and the (min, max) written. -/
abbrev SetRangeCall := Domain × Int × Int

/-- Modelled from the spec: the frequency-domain adapter
internal/cpupower is code of this repository that is not under src/.
Following section 4.2 of the spec, a Domain exposes current_range
(min_kHz, max_kHz), available_range (min_kHz, max_kHz and a possibly empty
discrete frequency list) and set_range(min, max); each operation may fail
and failures propagate.  A GovEnv fixes the outcome the kernel gives each
call: the result of CurrentRange and AvailableRange per domain and the
error (none on success) of each SetRange write. -/
structure GovEnv where
  currentRange : Domain → Except String (Int × Int)
  availableRange : Domain → Int × Int × List Int
  setRangeErr : Domain → Int → Int → Option String

/-- The loop of Server.restoreGovernor:

  var err error
  for _, g := range s.oldGovernors {
    err1 := g.domain.SetRange(g.min, g.max)
    if err1 != nil && err == nil { err = err1 }
  }
  return err

The result pairs the returned error with the sequence of SetRange calls
issued. -/
def restoreLoop (env : GovEnv) :
    List governorSettings → Option String → Option String × List SetRangeCall
  | [], err => (err, [])
  | g :: rest, err =>
    let err1 := env.setRangeErr g.domain g.min g.max
    let err' := if err1 ≠ none ∧ err = none then err1 else err
    let p := restoreLoop env rest err'
    (p.1, (g.domain, g.min, g.max) :: p.2)

/-- Embeds Server.restoreGovernor. -/
def restoreGovernor (env : GovEnv) (oldGovernors : List governorSettings) :
    Option String × List SetRangeCall :=
  restoreLoop env oldGovernors none

theorem restoreLoop_eq (env : GovEnv) :
    ∀ (old : List governorSettings) (err : Option String),
      restoreLoop env old err =
        (err.orElse (fun _ =>
            old.findSome? fun g => env.setRangeErr g.domain g.min g.max),
          old.map fun g => (g.domain, g.min, g.max)) := by
  intro old
  induction old with
  | nil =>
    intro err
    rcases err with _ | e <;> rfl
  | cons g rest ih =>
    intro err
    rw [restoreLoop]
    rcases err with _ | e
    · rcases he1 : env.setRangeErr g.domain g.min g.max with _ | e1
      · rw [if_neg (by simp [he1]), ih, List.map_cons, List.findSome?_cons, he1]
      · rw [if_pos (by simp [he1]), ih, List.map_cons, List.findSome?_cons, he1]
        rfl
    · rw [if_neg (by simp), ih, List.map_cons]
      rfl

/-- Claim C8.  For every saved old_governors list and every outcome of the
SetRange writes, restoreGovernor issues exactly one SetRange per saved
domain, in order, reapplying that domain's original (min, max) — every
remaining domain is attempted even after one fails — and returns the first
error observed (none if all writes succeed). -/
theorem restoreGovernor_attempts_all_returns_first_error (env : GovEnv)
    (old : List governorSettings) :
    restoreGovernor env old =
      (old.findSome? fun g => env.setRangeErr g.domain g.min g.max,
        old.map fun g => (g.domain, g.min, g.max)) := by
  rw [restoreGovernor, restoreLoop_eq]
  rfl

/-- The save phase of Server.setGovernor: capture every domain's current
(min, max), stopping at the first CurrentRange failure:

  old := []governorSettings{}
  for _, d := range domains {
    min, max, err := d.CurrentRange()
    if err != nil { return err }
    old = append(old, &governorSettings{d, min, max})
  }
  s.oldGovernors = old -/
def saveLoop (env : GovEnv) : List Domain → Except String (List governorSettings)
  | [] => Except.ok []
  | d :: rest =>
    match env.currentRange d with
    | Except.error e => Except.error e
    | Except.ok r =>
      match saveLoop env rest with
      | Except.error e => Except.error e
      | Except.ok old => Except.ok (⟨d, r.1, r.2⟩ :: old)

/-- Embeds the abs helper and nearest-frequency scan of Server.setGovernor:
closest starts as avail[0] and every element closer to target replaces
it. -/
def goAbs (x : Int) : Int := if x < 0 then -x else x

def closestLoop (target : Int) : Int → List Int → Int
  | closest, [] => closest
  | closest, a :: rest =>
    if goAbs (target - a) < goAbs (target - closest) then closestLoop target a rest
    else closestLoop target closest rest

/-- The apply phase of Server.setGovernor: for each domain compute
target = (max-min)*percent/100 + min (Go int division truncates toward
zero, Int.tdiv here), snap to the nearest available discrete frequency if
the list is non-empty, and SetRange(target, target); the first error
returns immediately.  The call list records the SetRange writes issued,
the failing one included. -/
def applyLoop (env : GovEnv) (percent : Int) :
    List Domain → Option String × List SetRangeCall
  | [] => (none, [])
  | d :: rest =>
    let r := env.availableRange d
    let target := Int.tdiv ((r.2.1 - r.1) * percent) 100 + r.1
    let target' := match r.2.2 with
      | [] => target
      | a0 :: _ => closestLoop target a0 r.2.2
    match env.setRangeErr d target' target' with
    | some e => (some e, [(d, target', target')])
    | none =>
      let p := applyLoop env percent rest
      (p.1, (d, target', target') :: p.2)

/-- Embeds Server.setGovernor.  Inputs: the outcome of cpupower.Domains(),
the requested percent and the session's current oldGovernors field.
Returns the error (none on success), the new value of s.oldGovernors and
the SetRange calls issued. -/
def setGovernor (env : GovEnv) (domains : Except String (List Domain)) (percent : Int)
    (oldGovernors : Option (List governorSettings)) :
    Option String × Option (List governorSettings) × List SetRangeCall :=
  match domains with
  | Except.error e => (some e, oldGovernors, [])
  | Except.ok ds =>
    if ds.length = 0 then (some "no power domains", oldGovernors, [])
    else
      match saveLoop env ds with
      | Except.error e => (some e, oldGovernors, [])
      | Except.ok old =>
        let p := applyLoop env percent ds
        (p.1, some old, p.2)

/-- Embeds the governor-restoration half of Server.drop: restore only when
s.oldGovernors is set, then clear it.  (The other half of drop, Dequeue of
the session's Locker, acts on the lock state and is the Dequeue modelled
above.)  Returns the SetRange calls issued and the new oldGovernors
field. -/
def dropGovernor (env : GovEnv) (oldGovernors : Option (List governorSettings)) :
    List SetRangeCall × Option (List governorSettings) :=
  match oldGovernors with
  | some old => ((restoreGovernor env old).2, none)
  | none => ([], none)

theorem saveLoop_first_error (env : GovEnv) (d : Domain) (e : String)
    (post : List Domain) (hd : env.currentRange d = Except.error e) :
    ∀ pre : List Domain, (∀ a ∈ pre, ∃ r, env.currentRange a = Except.ok r) →
      saveLoop env (pre ++ d :: post) = Except.error e := by
  intro pre
  induction pre with
  | nil =>
    intro _
    rw [List.nil_append, saveLoop, hd]
  | cons p pre ih =>
    intro hpre
    obtain ⟨r, hr⟩ := hpre p (List.mem_cons_self p pre)
    rw [List.cons_append, saveLoop, hr,
      ih fun a ha => hpre a (List.mem_cons_of_mem p ha)]

/-- Claim C9.  If setGovernor fails while capturing some domain's current
(min, max) during its save phase — every earlier domain captured fine and
domain d's CurrentRange fails — then it returns that error, no SetRange
write has been issued (no domain's frequency settings were modified),
old_governors stays unset, and the session's cleanup performs no governor
restoration. -/
theorem setGovernor_save_failure_frame (env : GovEnv) (pre post : List Domain)
    (d : Domain) (e : String) (percent : Int)
    (hpre : ∀ a ∈ pre, ∃ r, env.currentRange a = Except.ok r)
    (hd : env.currentRange d = Except.error e) :
    setGovernor env (Except.ok (pre ++ d :: post)) percent none = (some e, none, []) ∧
      dropGovernor env none = ([], none) := by
  constructor
  · rw [setGovernor]
    rw [if_neg (by simp)]
    rw [saveLoop_first_error env d e post hd pre hpre]
  · rfl

/-- Witness for C9 at a concrete input: one domain whose CurrentRange
fails. -/
theorem setGovernor_save_failure_frame_witness :
    setGovernor
        ⟨fun _ => Except.error "read fail", fun _ => (0, 0, []), fun _ _ _ => none⟩
        (Except.ok [⟨0⟩]) 90 none = (some "read fail", none, []) ∧
      dropGovernor
        ⟨fun _ => Except.error "read fail", fun _ => (0, 0, []), fun _ _ _ => none⟩
        none = ([], none) :=
  setGovernor_save_failure_frame
    ⟨fun _ => Except.error "read fail", fun _ => (0, 0, []), fun _ _ _ => none⟩
    [] [] ⟨0⟩ "read fail" 90
    (fun a ha => absurd ha (List.not_mem_nil a)) rfl

/-! ## The Linux CPU-list parser (cpuset.Parse) -/

/-- Embeds strings.Split(s, sep) for a one-character separator, on the
character list underlying the Go string. -/
def splitChar (sep : Char) : List Char → List (List Char)
  | [] => [[]]
  | c :: rest =>
    if c = sep then [] :: splitChar sep rest
    else
      match splitChar sep rest with
      | [] => [[c]]
      | g :: gs => (c :: g) :: gs

/-- The split at the first occurrence of sep, if any. -/
def splitFirst (sep : Char) : List Char → Option (List Char × List Char)
  | [] => none
  | c :: rest =>
    if c = sep then some ([], rest)
    else (splitFirst sep rest).map fun p => (c :: p.1, p.2)

/-- Embeds strings.SplitN(r, sep, 2) for a one-character separator: one
group when sep is absent, the pieces before and after the first sep
otherwise. -/
def splitN2 (sep : Char) (cs : List Char) : List (List Char) :=
  match splitFirst sep cs with
  | none => [cs]
  | some p => [p.1, p.2]

/-- Digit accumulation of strconv.Atoi: none as soon as a non-digit
appears. -/
def digitsValAux : List Char → Option Nat → Option Nat
  | [], acc => acc
  | c :: rest, acc =>
    digitsValAux rest
      (match acc with
       | none => none
       | some n =>
         if '0' ≤ c ∧ c ≤ '9' then some (10 * n + (c.toNat - '0'.toNat)) else none)

/-- The value of a non-empty all-digit string; none on the empty string or
any non-digit character. -/
def digitsVal : List Char → Option Nat
  | [] => none
  | c :: rest => digitsValAux (c :: rest) (some 0)

/-- The digits-and-range part of strconv.Atoi, after the optional sign has
been stripped: neg records the sign, ds holds the remaining characters. -/
def goAtoiMag (neg : Bool) (ds : List Char) : Option Int :=
  match digitsVal ds with
  | none => none
  | some n =>
    if neg then if n ≤ 2 ^ 63 then some (-(n : Int)) else none
    else if n ≤ 2 ^ 63 - 1 then some (n : Int) else none

/-- Embeds strconv.Atoi (base 10, 64-bit int): optional single sign, then
a non-empty run of decimal digits; a value outside the int64 range is an
ErrRange failure, which Parse treats like any other error. -/
def goAtoi (cs : List Char) : Option Int :=
  match cs with
  | [] => none
  | c :: rest =>
    if c = '+' then goAtoiMag false rest
    else if c = '-' then goAtoiMag true rest
    else goAtoiMag false (c :: rest)

/-- Embeds x/sys/unix CPUSet.Set applied to a Go int, as Parse does.  A
negative argument never reaches Set from Parse: range boundaries are split
at the first minus sign before Atoi runs, so a single element is never
negative, and a negative range end is rejected by the start > end check
(starts are non-negative); the negative branch here is therefore
unreachable from Parse and modelled as a no-op. -/
def CPUSet.setI (s : CPUSet) (cpu : Int) : CPUSet :=
  if cpu < 0 then s else CPUSet.set s cpu.toNat

/-- The loop body for a multi-element range of Parse:

  for e := start; e <= end; e++ { set.Set(e) }

bounded iteration is exact for end < 2^63 - 1 (at end = maxInt64 the Go
loop counter wraps and the loop never exits; the well-formedness predicate
below keeps values under that corner). -/
def fillRange (set : CPUSet) (start e_nd : Int) : CPUSet :=
  ((List.range (e_nd + 1 - start).toNat).map fun (k : Nat) => start + (k : Int)).foldl
    CPUSet.setI set

/-- One element of the comma-separated list, as Parse processes it.  The
error payloads of strconv and of the invalid-range message are collapsed
to markers; Parse's callers test err != nil only. -/
def parseElem (set : CPUSet) (r : List Char) : Except String CPUSet :=
  match splitN2 '-' r with
  | [b0] =>
    match goAtoi b0 with
    | none => Except.error "strconv"
    | some elem => Except.ok (CPUSet.setI set elem)
  | [b0, b1] =>
    match goAtoi b0 with
    | none => Except.error "strconv"
    | some start =>
      match goAtoi b1 with
      | none => Except.error "strconv"
      | some e_nd =>
        if start > e_nd then Except.error "invalid range"
        else Except.ok (fillRange set start e_nd)
  | _ => Except.ok set

def parseLoop (set : CPUSet) : List (List Char) → Except String CPUSet
  | [] => Except.ok set
  | r :: rest =>
    match parseElem set r with
    | Except.error e => Except.error e
    | Except.ok set' => parseLoop set' rest

/-- Embeds cpuset.Parse.  Go returns (set, err) with the partially built
set alongside a non-nil error; every caller checks err first, so the
embedding is the Except of the two. -/
def Parse (s : String) : Except String CPUSet :=
  if s = "" then Except.error "cannot parse empty string"
  else parseLoop ∅ (splitChar ',' s.data)

/-! ## The CPU-list grammar and its semantics -/

/-- A non-empty all-decimal-digit character run. -/
def isDigits (cs : List Char) : Bool :=
  !cs.isEmpty && cs.all fun c => decide ('0' ≤ c ∧ c ≤ '9')

/-- The number denoted by a digit run. -/
def digitsToNat (cs : List Char) : Nat :=
  cs.foldl (fun acc c => 10 * acc + (c.toNat - '0'.toNat)) 0

/-- Well-formedness of one element under the spec's CPU-list grammar
(section 6): a decimal integer, or lo-hi with lo ≤ hi; the machine-range
bound keeps every mentioned integer below 2^63 - 1 so that strconv.Atoi
accepts it and the fill loop cannot wrap. -/
def elemWF (r : List Char) : Bool :=
  match splitN2 '-' r with
  | [b0] => isDigits b0 && decide (digitsToNat b0 < 2 ^ 63 - 1)
  | [b0, b1] =>
    isDigits b0 && isDigits b1 && decide (digitsToNat b0 ≤ digitsToNat b1) &&
      decide (digitsToNat b1 < 2 ^ 63 - 1)
  | _ => false

/-- Well-formedness of a whole CPU-list string under the spec's grammar:
non-empty, and every comma-separated element well formed. -/
def wfCPUList (s : String) : Prop :=
  s ≠ "" ∧ ∀ r ∈ splitChar ',' s.data, elemWF r = true

/-- The single bit n of the bitmap, when n is within capacity. -/
def natBit (n : Nat) : CPUSet :=
  if h : n < 1024 then {⟨n, h⟩} else ∅

/-- The in-capacity slice of the integer interval lo..hi. -/
def rangeBits (lo hi : Nat) : CPUSet :=
  Finset.univ.filter fun x : Fin 1024 => lo ≤ x.val ∧ x.val ≤ hi

/-- The set of in-capacity integers one grammar element mentions. -/
def elemSem (r : List Char) : CPUSet :=
  match splitN2 '-' r with
  | [b0] => natBit (digitsToNat b0)
  | [b0, b1] => rangeBits (digitsToNat b0) (digitsToNat b1)
  | _ => ∅

/-- The set of in-capacity integers a CPU-list string mentions. -/
def cpuListSem (s : String) : CPUSet :=
  (splitChar ',' s.data).foldl (fun acc r => acc ∪ elemSem r) ∅

/-- Counterexample to claim C7 as stated: the string "1024" is well formed
under the CPU-list grammar and mentions an integer beyond the bitmap
capacity (1024 ≥ 1024), yet Parse does not return an error — it succeeds
with the out-of-range bit silently dropped, yielding the empty set. -/
theorem parse_out_of_range_bit_dropped :
    wfCPUList "1024" ∧ Parse "1024" = Except.ok (∅ : CPUSet) :=
  ⟨⟨by decide, by decide⟩, rfl⟩

/-! ## Parse on well-formed input -/

theorem digitsValAux_all_digits :
    ∀ (cs : List Char) (n : Nat), (∀ c ∈ cs, '0' ≤ c ∧ c ≤ '9') →
      digitsValAux cs (some n) =
        some (cs.foldl (fun acc c => 10 * acc + (c.toNat - '0'.toNat)) n) := by
  intro cs
  induction cs with
  | nil => intro n _; rfl
  | cons c rest ih =>
    intro n h
    rw [digitsValAux]
    rw [if_pos (h c (List.mem_cons_self c rest))]
    rw [ih _ fun a ha => h a (List.mem_cons_of_mem c ha)]
    rfl

theorem isDigits_all {cs : List Char} (h : isDigits cs = true) :
    ∀ c ∈ cs, '0' ≤ c ∧ c ≤ '9' := by
  rw [isDigits, Bool.and_eq_true] at h
  intro c hc
  have := List.all_eq_true.1 h.2 c hc
  exact of_decide_eq_true this

theorem digitsVal_eq {cs : List Char} (h : isDigits cs = true) :
    digitsVal cs = some (digitsToNat cs) := by
  rcases cs with _ | ⟨c, rest⟩
  · rw [isDigits] at h
    simp at h
  · rw [digitsVal, digitsValAux_all_digits (c :: rest) 0 (isDigits_all h)]
    rfl

theorem digit_head_no_sign {c : Char} {rest : List Char}
    (h : isDigits (c :: rest) = true) : c ≠ '+' ∧ c ≠ '-' := by
  have hc := (isDigits_all h c (List.mem_cons_self c rest)).1
  constructor
  · rintro rfl; revert hc; decide
  · rintro rfl; revert hc; decide

theorem goAtoi_digits {cs : List Char} (hd : isDigits cs = true)
    (hb : digitsToNat cs ≤ 2 ^ 63 - 1) :
    goAtoi cs = some ((digitsToNat cs : Nat) : Int) := by
  rcases cs with _ | ⟨c, rest⟩
  · rw [isDigits] at hd
    simp at hd
  · obtain ⟨hp, hm⟩ := digit_head_no_sign hd
    rw [goAtoi, if_neg hp, if_neg hm, goAtoiMag, digitsVal_eq hd]
    dsimp only
    rw [if_neg (by simp), if_pos hb]

theorem setI_natCast (s : CPUSet) (n : Nat) :
    CPUSet.setI s ((n : Nat) : Int) = CPUSet.set s n := by
  rw [CPUSet.setI, if_neg (by omega), Int.toNat_natCast]

theorem set_eq_union_natBit (s : CPUSet) (n : Nat) :
    CPUSet.set s n = s ∪ natBit n := by
  rw [CPUSet.set, natBit]
  by_cases h : n < 1024
  · rw [dif_pos h, dif_pos h, Finset.insert_eq, Finset.union_comm]
  · rw [dif_neg h, dif_neg h, Finset.union_empty]

theorem fill_aux (a : Nat) :
    ∀ (n : Nat) (acc : CPUSet),
      ((List.range n).map fun (k : Nat) => ((a : Int) + (k : Int))).foldl CPUSet.setI acc =
        acc ∪ (Finset.univ.filter fun x : Fin 1024 => a ≤ x.val ∧ x.val < a + n) := by
  intro n
  induction n with
  | zero =>
    intro acc
    rw [List.range_zero, List.map_nil, List.foldl_nil]
    rw [Finset.filter_eq_empty_iff.2 (by intro x _; omega), Finset.union_empty]
  | succ n ih =>
    intro acc
    rw [List.range_succ, List.map_append, List.foldl_append, ih]
    rw [List.map_singleton, List.foldl_cons, List.foldl_nil]
    rw [show (a : Int) + (n : Int) = ((a + n : Nat) : Int) by push_cast; ring]
    rw [setI_natCast, set_eq_union_natBit, Finset.union_assoc]
    congr 1
    ext x
    have hx := x.isLt
    simp only [Finset.mem_union, Finset.mem_filter, Finset.mem_univ, true_and, natBit]
    by_cases h : a + n < 1024
    · rw [dif_pos h]
      simp only [Finset.mem_singleton, Fin.ext_iff]
      show (a ≤ x.val ∧ x.val < a + n) ∨ x.val = a + n ↔ a ≤ x.val ∧ x.val < a + n + 1
      omega
    · rw [dif_neg h]
      simp only [Finset.not_mem_empty, or_false]
      omega

theorem fillRange_sem (acc : CPUSet) (a b : Nat) :
    fillRange acc (a : Int) (b : Int) = acc ∪ rangeBits a b := by
  rw [fillRange]
  have hn : ((b : Int) + 1 - (a : Int)).toNat = b + 1 - a := by omega
  have hset : (Finset.univ.filter fun x : Fin 1024 =>
      a ≤ x.val ∧ x.val < a + (b + 1 - a)) = rangeBits a b := by
    rw [rangeBits]
    ext x
    simp only [Finset.mem_filter, Finset.mem_univ, true_and]
    omega
  rw [hn, fill_aux, hset]

theorem parseElem_wf (acc : CPUSet) (r : List Char) (h : elemWF r = true) :
    parseElem acc r = Except.ok (acc ∪ elemSem r) := by
  rcases hsp : splitN2 '-' r with _ | ⟨b0, _ | ⟨b1, _ | ⟨b2, bs⟩⟩⟩
  · simp only [elemWF, hsp] at h
    simp at h
  · simp only [elemWF, hsp, Bool.and_eq_true, decide_eq_true_eq] at h
    obtain ⟨hd, hb⟩ := h
    simp only [parseElem, elemSem, hsp]
    rw [goAtoi_digits hd (by omega)]
    dsimp only
    rw [setI_natCast, set_eq_union_natBit]
  · simp only [elemWF, hsp, Bool.and_eq_true, decide_eq_true_eq] at h
    obtain ⟨⟨⟨hd0, hd1⟩, hle⟩, hb1⟩ := h
    simp only [parseElem, elemSem, hsp]
    rw [goAtoi_digits hd0 (by omega)]
    dsimp only
    rw [goAtoi_digits hd1 (by omega)]
    dsimp only
    rw [if_neg (by omega), fillRange_sem]
  · simp only [elemWF, hsp] at h
    simp at h

theorem parseLoop_wf :
    ∀ (ranges : List (List Char)) (acc : CPUSet),
      (∀ r ∈ ranges, elemWF r = true) →
      parseLoop acc ranges =
        Except.ok (ranges.foldl (fun acc r => acc ∪ elemSem r) acc) := by
  intro ranges
  induction ranges with
  | nil => intro acc _; rfl
  | cons r rest ih =>
    intro acc h
    rw [parseLoop, parseElem_wf acc r (h r (List.mem_cons_self r rest))]
    dsimp only
    exact ih _ fun a ha => h a (List.mem_cons_of_mem r ha)

/-- Claim C7 (amended).  For every input string that is well-formed under
the CPU-list grammar, with every mentioned integer inside the machine
integer range, Parse succeeds — also when the string mentions integers
beyond the bitmap capacity — and returns exactly the set of mentioned
in-capacity integers, silently dropping every out-of-range bit. -/
theorem parse_wf_ok_drops_out_of_range (s : String) (hwf : wfCPUList s) :
    Parse s = Except.ok (cpuListSem s) := by
  obtain ⟨hne, hel⟩ := hwf
  rw [Parse, if_neg hne, cpuListSem]
  exact parseLoop_wf _ ∅ hel

/-- Witness for the amended C7 at a concrete input: "1030,1" is well
formed, mentions 1030 (beyond capacity) and 1, and parses successfully to
the set mentioned in capacity. -/
theorem parse_wf_ok_drops_out_of_range_witness :
    wfCPUList "1030,1" ∧ Parse "1030,1" = Except.ok (cpuListSem "1030,1") :=
  ⟨⟨by decide, by decide⟩,
    parse_wf_ok_drops_out_of_range "1030,1" ⟨by decide, by decide⟩⟩
